import Mathlib

/-!
# Verification of the policy-scout organization-tree engine

Shallow embedding of the traversal / policy-resolution engine of
`src/cmd/aws.go` (package `cmd` of policy-scout).

* The AWS Organizations API (the collaborator) is modelled by an `Org`
  record of possibly-failing lookups (`Except String`), one field per API
  operation the engine uses.
* The engine's effects — lines written to stdout, the shared
  `map[string]bool` visited set (a Go map is a reference, so it is global
  mutable state threaded through the recursion), and the sequence of
  collaborator calls issued — are threaded through an explicit state monad
  `M`.
* Go's unbounded recursion (`printEntireOrg`, `listAllSCPsForChild`, and
  the BFS loops) is modelled with an explicit fuel parameter; running out
  of fuel is a distinguished error, and theorems are stated for
  sufficiently large fuel.
* `fmt.Printf`/`fmt.Println` output is modelled as the exact formatted
  string (including the trailing `"\n"` where the format string has one).
* The AWS-config loading step of `describeAccount` is outside the
  collaborator interface and is not modelled; the embedding of
  `describeAccount` starts at the `getRootID` call.
-/

/-- `types.ChildType` of the AWS SDK: the two child kinds `listChildren`
can be asked for. -/
inductive ChildType where
  | account
  | organizationalUnit
deriving DecidableEq, Repr

/-- One collaborator (AWS Organizations API) call, as issued by the engine. -/
inductive CallEv where
  | listRoots
  | listChildren (parentId : String) (childType : ChildType)
  | descAccount (id : String)
  | descOU (id : String)
  | listPolicies (targetId : String)
  | listParents (childId : String)
  | descOrg
deriving DecidableEq, Repr

/-- The collaborator: a read-only snapshot of the organization API.
Each field models one AWS Organizations operation used by `aws.go`,
returning either its result or an API error message. Only the record
components that the Go code actually reads are modelled (e.g.
`describeAccount` only ever reads `*account.Name`). -/
structure Org where
  listRootsApi : Except String (List String)
  listChildrenApi : String → ChildType → Except String (List String)
  describeAccountApi : String → Except String String
  describeOUApi : String → Except String String
  listPoliciesApi : String → Except String (List String)
  listParentsApi : String → Except String (List String)
  describeOrganizationApi : Except String String

/-- Engine state: stdout lines emitted so far, the shared `visited`
map (insertion-ordered list of keys; only membership is ever tested),
and the trace of collaborator calls issued. -/
structure S where
  out : List String
  visited : List String
  calls : List CallEv
deriving DecidableEq, Repr

/-- The empty initial state (fresh `visited` map, nothing printed). -/
def S0 : S := ⟨[], [], []⟩

/-- Effect monad of the embedding: state plus Go-style `error` results. -/
def M (α : Type) : Type := S → Except String α × S

instance : Monad M where
  pure a := fun s => (Except.ok a, s)
  bind x f := fun s =>
    match x s with
    | (Except.ok a, t) => f a t
    | (Except.error e, t) => (Except.error e, t)

/-- `return nil, err` / `return err`. -/
def throwM {α : Type} (e : String) : M α := fun s => (Except.error e, s)

/-- A `fmt.Printf`/`fmt.Println` to stdout. -/
def emit (line : String) : M Unit := fun s =>
  (Except.ok (), { s with out := s.out ++ [line] })

/-- Read the current state (used for `visited[...]` tests). -/
def getS : M S := fun s => (Except.ok s, s)

/-- `visited[childID] = true`. -/
def markVisited (id : String) : M Unit := fun s =>
  (Except.ok (), { s with visited := s.visited ++ [id] })

/-- Issue one collaborator call: record the event, then return the
API's answer (propagating its error unwrapped, as the raw SDK calls do). -/
def liftApi {α : Type} (ev : CallEv) (r : Except String α) : M α := fun s =>
  match r with
  | Except.ok a => (Except.ok a, { s with calls := s.calls ++ [ev] })
  | Except.error e => (Except.error e, { s with calls := s.calls ++ [ev] })

/-- `if err != nil { return fmt.Errorf("ctx: %w", err) }`: run `x`,
prefixing any error with `ctx`. -/
def wrapErr {α : Type} (ctx : String) (x : M α) : M α := fun s =>
  match x s with
  | (Except.ok a, t) => (Except.ok a, t)
  | (Except.error e, t) => (Except.error (ctx ++ e), t)

/-- The `indent` constant of `aws.go`: four spaces. -/
def indent : String := "    "

/-- `strings.HasPrefix`, modelled on the character list (for the ASCII
ids involved this is exactly Go's byte-prefix test; `String.startsWith`
itself is not kernel-reducible, which concrete witnesses need). -/
def goStartsWith (s pre : String) : Bool := pre.data.isPrefixOf s.data

/-- `strings.ToLower`, modelled character-wise on the character list. -/
def goToLower (s : String) : String := String.mk (s.data.map Char.toLower)

/-- `strconv.Atoi(s)` succeeds: an optional leading sign followed by at
least one decimal digit, with the value in 64-bit `int` range. -/
def atoiOk (s : String) : Bool :=
  match s.data with
  | [] => false
  | c :: rest =>
    if c = '+' then
      !rest.isEmpty && rest.all Char.isDigit &&
        decide ((rest.foldl (fun n d => n * 10 + (d.toNat - '0'.toNat)) 0) ≤ 2 ^ 63 - 1)
    else if c = '-' then
      !rest.isEmpty && rest.all Char.isDigit &&
        decide ((rest.foldl (fun n d => n * 10 + (d.toNat - '0'.toNat)) 0) ≤ 2 ^ 63)
    else
      (c :: rest).all Char.isDigit &&
        decide (((c :: rest).foldl (fun n d => n * 10 + (d.toNat - '0'.toNat)) 0) ≤ 2 ^ 63 - 1)

/-! ## The collaborator wrappers of `aws.go` -/

/-- `listChildren` (aws.go:333): raw `ListChildren` call, error unwrapped. -/
def listChildren (org : Org) (parentID : String) (childType : ChildType) :
    M (List String) :=
  liftApi (CallEv.listChildren parentID childType) (org.listChildrenApi parentID childType)

/-- `getAccount` (aws.go:348), specialised to the only field read,
`*account.Name`. -/
def getAccount (org : Org) (accountID : String) : M String :=
  liftApi (CallEv.descAccount accountID) (org.describeAccountApi accountID)

/-- `getOU` (aws.go:362), specialised to the only field read, `*ou.Name`. -/
def getOU (org : Org) (ouID : String) : M String :=
  liftApi (CallEv.descOU ouID) (org.describeOUApi ouID)

/-- `listSCPsForTarget` (aws.go:376): SCPs directly attached to a target,
as the list of their names (the only field the callers read). -/
def listSCPsForTarget (org : Org) (targetID : String) : M (List String) :=
  liftApi (CallEv.listPolicies targetID) (org.listPoliciesApi targetID)

/-- `isManagementAccount` (aws.go:391). NOTE: the Go code returns `false`
when `DescribeOrganization` fails — the API error is swallowed, not
propagated (the function's return type is a plain `bool`). -/
def isManagementAccount (org : Org) (accountID : String) : M Bool := fun s =>
  let s₁ := { s with calls := s.calls ++ [CallEv.descOrg] }
  match org.describeOrganizationApi with
  | Except.ok master => (Except.ok (master == accountID), s₁)
  | Except.error _ => (Except.ok false, s₁)

/-- `getRootID` (aws.go:403): error if the API fails or returns no roots;
otherwise the first root id (any further roots are ignored). -/
def getRootID (org : Org) : M String := do
  let roots ← liftApi CallEv.listRoots org.listRootsApi
  match roots with
  | [] => throwM "no roots found in the organization"
  | r :: _ => pure r

/-- `getNameByID` (aws.go:417): classify the identifier purely by shape —
12-character `strconv.Atoi`-parsable ids are accounts, `r-` prefixed ids
are the root (constant name, no API call), everything else is assumed to
be an OU. -/
def getNameByID (org : Org) (entityID : String) : M String :=
  if atoiOk entityID && entityID.length == 12 then
    wrapErr "error getting account: " (getAccount org entityID)
  else if goStartsWith entityID "r-" then
    pure "Root"
  else
    wrapErr "error getting OU: " (getOU org entityID)

/-- `listParentOUs` (aws.go:469): the parents of an entity. The Go code
wraps each parent id in an `OrganizationalUnit` struct of which only the
id is ever read, so the embedding returns the ids directly. -/
def listParentOUs (org : Org) (entityID : String) : M (List String) :=
  liftApi (CallEv.listParents entityID) (org.listParentsApi entityID)

/-- The `for _, ou := range parentOUs` loop of `listAllSCPsForChild`,
abstracted over the recursive call (which carries the fuel). -/
def scpsOfParents (recurse : String → M (List String)) :
    List String → M (List String)
  | [] => pure []
  | p :: ps => do
    let ouSCPs ← recurse p
    let rest ← scpsOfParents recurse ps
    pure (ouSCPs ++ rest)

/-- `listAllSCPsForChild` (aws.go:438): direct SCPs of the child, then —
unless the child is the root (`r-` prefix) — recursively the SCPs of each
parent, concatenated direct-first. -/
def listAllSCPsForChild (org : Org) : Nat → String → M (List String)
  | 0, _ => throwM "out of fuel"
  | fuel + 1, childID => do
    let directSCPs ← listSCPsForTarget org childID
    if goStartsWith childID "r-" then
      pure directSCPs
    else do
      let parentOUs ← listParentOUs org childID
      let inherited ← scpsOfParents (listAllSCPsForChild org fuel) parentOUs
      pure (directSCPs ++ inherited)

/-! ## Output formatting -/

/-- The dedup-by-name loop of `printEntireOrg`/`printPathToAccount`
(aws.go:284–294): a `unique` set plus an insertion-ordered `scpNames`
accumulator — keeps the first occurrence of every name. -/
def dedupFirstGo : List String → List String → List String
  | [], acc => acc
  | n :: ns, acc => if n ∈ acc then dedupFirstGo ns acc else dedupFirstGo ns (acc ++ [n])

/-- Deduplicate a list of SCP names keeping first occurrences, exactly as
the Go loop does. -/
def dedupFirst (names : List String) : List String := dedupFirstGo names []

/-- `fmt.Printf("%s|-- Root: [%s]\n", pfx, id)`. -/
def rootLine (pfx id : String) : String := pfx ++ "|-- Root: [" ++ id ++ "]\n"

/-- `fmt.Printf("%s|-- OU: %s [%s]\n", pfx, name, id)`. -/
def ouLine (pfx name id : String) : String :=
  pfx ++ "|-- OU: " ++ name ++ " [" ++ id ++ "]\n"

/-- `fmt.Printf("%s|-- Account: %s [%s] (SCPs: %s)\n", pfx, name, id,
strings.Join(scpNames, ", "))`. -/
def accountLine (pfx name id : String) (scpNames : List String) : String :=
  pfx ++ "|-- Account: " ++ name ++ " [" ++ id ++ "] (SCPs: " ++
    String.intercalate ", " scpNames ++ ")\n"

/-! ## `printEntireOrg` (aws.go:241–330) -/

/-- The `for _, child := range childAccounts` body of `printEntireOrg`
(aws.go:261–300): skip visited accounts; otherwise query the management
flag, resolve the name, resolve and dedup the SCPs, print, and mark
visited. -/
def printEntireOrgAccounts (org : Org) (fuel : Nat) (pfx : String) :
    List String → M Unit
  | [] => pure ()
  | childID :: rest => do
    let s ← getS
    if childID ∈ s.visited then
      printEntireOrgAccounts org fuel pfx rest
    else do
      let isMgmt ← isManagementAccount org childID
      let accountName ← wrapErr ("error getting name for id " ++ childID ++ ": ")
        (getNameByID org childID)
      let accountName := if isMgmt then accountName ++ " (Management Account)" else accountName
      let allSCPs ← wrapErr "error listing SCPs: " (listAllSCPsForChild org fuel childID)
      emit (accountLine pfx accountName childID (dedupFirst allSCPs))
      markVisited childID
      printEntireOrgAccounts org fuel pfx rest

/-- The `for _, child := range childOUs` body of `printEntireOrg`
(aws.go:303–327), abstracted over the recursive `printEntireOrg` call.
It returns the ids appended to `toBeProcessed` (the Go code appends to
the worklist just before each recursive call; since neither the
recursive call nor the rest of this loop reads the worklist, collecting
the appends and adding them after the loop is equivalent). -/
def printEntireOrgOUs (org : Org) (recurse : String → M Unit) (pfx : String) :
    List String → M (List String)
  | [] => pure []
  | childID :: rest => do
    let s ← getS
    if childID ∈ s.visited then
      printEntireOrgOUs org recurse pfx rest
    else do
      let ouName ← wrapErr ("error getting name for id " ++ childID ++ ": ")
        (getNameByID org childID)
      emit (ouLine pfx ouName childID)
      markVisited childID
      recurse childID
      let added ← printEntireOrgOUs org recurse pfx rest
      pure (childID :: added)

/-- The `for len(toBeProcessed) > 0` worklist loop of `printEntireOrg`. -/
def printEntireOrgLoop (org : Org) : Nat → List String → String → M Unit
  | 0, _, _ => throwM "out of fuel"
  | _ + 1, [], _ => pure ()
  | fuel + 1, parentID :: rest, pfx => do
    let childAccounts ← wrapErr "error listing accounts: "
      (listChildren org parentID ChildType.account)
    let childOUs ← wrapErr "error listing organizational units: "
      (listChildren org parentID ChildType.organizationalUnit)
    printEntireOrgAccounts org fuel pfx childAccounts
    let added ← printEntireOrgOUs org
      (fun childID => printEntireOrgLoop org fuel [childID] (pfx ++ indent)) pfx childOUs
    printEntireOrgLoop org fuel (rest ++ added) pfx

/-- `printEntireOrg` (aws.go:241): BFS worklist starting at `rootID`,
mixed with a recursive descent per child OU. -/
def printEntireOrg (org : Org) (fuel : Nat) (rootID pfx : String) : M Unit :=
  printEntireOrgLoop org fuel [rootID] pfx

/-! ## `printPathToAccount` (aws.go:142–238) -/

/-- A Go backing array for a `[]string`: its allocated capacity and the
cells written so far (always a prefix of the capacity). -/
structure GoArr where
  cap : Nat
  data : List String
deriving DecidableEq, Repr

/-- The allocated backing arrays, indexed by allocation order. -/
abbrev Heap := List GoArr

/-- A `[]string` slice value. Every path slice in `printPathToAccount`
begins at offset 0 of its array (`append` never advances the offset), so
a reference and a length suffice; the slice capacity is the array's. -/
structure GoSlice where
  arr : Nat
  len : Nat
deriving DecidableEq, Repr

def Heap.lookup (h : Heap) (r : Nat) : GoArr := h.getD r ⟨0, []⟩

/-- Write `x` at index `i` of an array's contents: overwrite, or extend
by one cell when `i` equals the current contents length. -/
def writeAt (l : List String) (i : Nat) (x : String) : List String :=
  l.take i ++ x :: l.drop (i + 1)

/-- Go's `append(s, x)` on a `[]string`: with spare capacity the write
goes into the shared backing array in place; otherwise a fresh array of
double capacity is allocated holding a copy of the slice's cells (the
runtime's growth rule for slices of these sizes). -/
def goAppend (h : Heap) (s : GoSlice) (x : String) : Heap × GoSlice :=
  let a := Heap.lookup h s.arr
  if s.len < a.cap then
    (h.set s.arr ⟨a.cap, writeAt a.data s.len x⟩, ⟨s.arr, s.len + 1⟩)
  else
    (h ++ [⟨2 * a.cap, a.data.take s.len ++ [x]⟩], ⟨h.length, s.len + 1⟩)

/-- The list of strings a slice currently denotes. -/
def readSlice (h : Heap) (s : GoSlice) : List String :=
  (Heap.lookup h s.arr).data.take s.len

/-- The `node` struct of `printPathToAccount`: path from the root (a Go
slice into the heap of backing arrays) plus the node's own id. -/
structure PathNode where
  path : GoSlice
  id : String
deriving DecidableEq, Repr

/-- The `for _, id := range newPath` printing loop of the found branch
(aws.go:182–221): resolve each path element's name, print it by id shape
(root with a hardcoded empty prefix, OU, or account with management flag
and dedupped SCPs), indenting four more spaces per element. -/
def printPathLines (org : Org) (fuel : Nat) : List String → String → M Unit
  | [], _ => pure ()
  | id :: rest, pfx => do
    let name ← wrapErr ("error getting name for id [" ++ id ++ "]: ")
      (getNameByID org id)
    if goStartsWith id "r-" then
      emit (rootLine "" id)
    else if goStartsWith id "ou-" then
      emit (ouLine pfx name id)
    else do
      let isMgmt ← isManagementAccount org id
      let name := if isMgmt then name ++ " (Management Account)" else name
      let allSCPs ← wrapErr "error listing SCPs: " (listAllSCPsForChild org fuel id)
      emit (accountLine pfx name id (dedupFirst allSCPs))
    printPathLines org fuel rest (pfx ++ indent)

/-- The `for _, child := range childAccounts` loop of the BFS body
(aws.go:174–224): for every child account the code first executes
`newPath := append(currentNode.path, childID)` — possibly writing into
the shared backing array — and only then tests the id. On the first
match it yields the list `newPath` denotes at that moment (the print
loop reads it immediately and nothing mutates the heap while printing);
otherwise the mutated heap flows on. -/
def pathScanAccounts (target : String) : Heap → GoSlice → List String →
    Heap × Option (List String)
  | h, _, [] => (h, none)
  | h, sl, childID :: rest =>
    let hp := goAppend h sl childID
    if childID == target then (hp.1, some (readSlice hp.1 hp.2))
    else pathScanAccounts target hp.1 sl rest

/-- The `for _, child := range childOUs` loop of the BFS body
(aws.go:226–232): append each child OU id to the current path — again
possibly in place, so a later sibling's append overwrites the tail cell
of an earlier sibling's stored path — and collect the nodes to enqueue.
Collecting the appends and adding them to the queue after the loop is
equivalent, since the queue is read only at the loop head. -/
def pathEnqueueOUs : Heap → GoSlice → List String → Heap × List PathNode
  | h, _, [] => (h, [])
  | h, sl, childID :: rest =>
    let hp := goAppend h sl childID
    let hr := pathEnqueueOUs hp.1 sl rest
    (hr.1, ⟨hp.2, childID⟩ :: hr.2)

/-- The `for len(queue) > 0` BFS loop of `printPathToAccount`, carrying
the heap of path backing arrays (popping `queue[0]` copies the node
value and nothing reads stale queue cells, so the queue itself is a
plain list). When the target id is among the current node's child
accounts the path slice built for it is printed and the whole function
returns; otherwise the child OUs are enqueued with extended paths. An
exhausted queue prints an informational message (no trailing newline in
the Go format string) and returns `nil`. -/
def printPathToAccountLoop (org : Org) (targetAccountID : String) :
    Nat → Heap → List PathNode → M Unit
  | 0, _, _ => throwM "out of fuel"
  | _ + 1, _, [] =>
    emit ("Target account ID " ++ targetAccountID ++ " was not found in the organization")
  | fuel + 1, h, currentNode :: rest => do
    let childAccounts ← wrapErr "error listing accounts: "
      (listChildren org currentNode.id ChildType.account)
    let childOUs ← wrapErr "error listing organizational units: "
      (listChildren org currentNode.id ChildType.organizationalUnit)
    match pathScanAccounts targetAccountID h currentNode.path childAccounts with
    | (_, some newPath) => printPathLines org fuel newPath ""
    | (h₂, none) =>
      let hr := pathEnqueueOUs h₂ currentNode.path childOUs
      printPathToAccountLoop org targetAccountID fuel hr.1 (rest ++ hr.2)

/-- `printPathToAccount` (aws.go:142): BFS from the root node. The
initial path is the literal `[]string{rootID}` — length 1, capacity 1. -/
def printPathToAccount (org : Org) (fuel : Nat) (rootID targetAccountID : String) :
    M Unit :=
  printPathToAccountLoop org targetAccountID fuel [⟨1, [rootID]⟩] [⟨⟨0, 1⟩, rootID⟩]

/-! ## Dispatch (aws.go:93–140) -/

/-- `displayOrganizationTreeJSON` (aws.go:121): unimplemented placeholder. -/
def displayOrganizationTreeJSON : M Unit := emit "JSON Output\n"

/-- `displayOrganizationTreeDot` (aws.go:127): unimplemented placeholder. -/
def displayOrganizationTreeDot : M Unit := emit "Dot Output\n"

/-- `displayOrganizationTreeText` (aws.go:133): `"all"` (case-insensitive)
prints the root line and walks the whole org; anything else searches for
the single account's path. -/
def displayOrganizationTreeText (org : Org) (fuel : Nat)
    (targetAccountID rootID pfx : String) : M Unit :=
  if goToLower targetAccountID == "all" then do
    emit (rootLine pfx rootID)
    printEntireOrg org fuel rootID (pfx ++ indent)
  else
    printPathToAccount org fuel rootID targetAccountID

/-- `describeAccount` (aws.go:93), from the `getRootID` call on (AWS
config loading precedes it and is outside the collaborator interface).
The root id is resolved *before* the output-format switch, so even the
`json`/`dot` placeholders issue a `listRoots` call and fail if it fails.
The format is the string value of the `outputFormat` flag; the `switch`
sends `"dot"` and `"json"` to the placeholders and everything else
(i.e. `"text"`) to the text renderer with an empty prefix and a fresh
visited map. -/
def describeAccount (org : Org) (fuel : Nat) (format targetAccountID : String) : M Unit := do
  let rootID ← wrapErr "couldn't get organization's root ID: " (getRootID org)
  match format with
  | "dot" => displayOrganizationTreeDot
  | "json" => displayOrganizationTreeJSON
  | _ => displayOrganizationTreeText org fuel targetAccountID rootID ""

/-! ## Computation lemmas for `M` -/

@[simp]
theorem bind_app {α β : Type} (x : M α) (f : α → M β) (s : S) :
    (x >>= f) s = match x s with
      | (Except.ok a, t) => f a t
      | (Except.error e, t) => (Except.error e, t) := rfl

@[simp]
theorem pure_app {α : Type} (a : α) (s : S) : (pure a : M α) s = (Except.ok a, s) := rfl

@[simp]
theorem throwM_app {α : Type} (e : String) (s : S) :
    (throwM e : M α) s = (Except.error e, s) := rfl

@[simp]
theorem emit_app (line : String) (s : S) :
    emit line s = (Except.ok (), { s with out := s.out ++ [line] }) := rfl

@[simp]
theorem getS_app (s : S) : getS s = (Except.ok s, s) := rfl

@[simp]
theorem markVisited_app (id : String) (s : S) :
    markVisited id s = (Except.ok (), { s with visited := s.visited ++ [id] }) := rfl

@[simp]
theorem liftApi_ok {α : Type} (ev : CallEv) (a : α) (s : S) :
    liftApi ev (Except.ok a) s = (Except.ok a, { s with calls := s.calls ++ [ev] }) := rfl

@[simp]
theorem liftApi_error {α : Type} (ev : CallEv) (e : String) (s : S) :
    liftApi ev (Except.error e : Except String α) s =
      (Except.error e, { s with calls := s.calls ++ [ev] }) := rfl

@[simp]
theorem wrapErr_app {α : Type} (ctx : String) (x : M α) (s : S) :
    wrapErr ctx x s = match x s with
      | (Except.ok a, t) => (Except.ok a, t)
      | (Except.error e, t) => (Except.error (ctx ++ e), t) := rfl

/-! ## Organization snapshots as rooted trees

To state the tree-shaped claims we model one consistent organization
snapshot as a rooted tree and derive a collaborator from it.  An `OUNode`
covers both the Root (its `id` is `r-...`-shaped) and ordinary OUs. -/

/-- A member account: id, display name, and directly attached SCP names. -/
structure AccountNode where
  id : String
  name : String
  policies : List String
deriving DecidableEq, Repr

/-- An internal node (the Root or an OU): id, name, directly attached SCP
names, direct child accounts and direct child OUs. -/
inductive OUNode where
  | mk (id name : String) (policies : List String)
       (accounts : List AccountNode) (ous : List OUNode)

def OUNode.id : OUNode → String
  | .mk i _ _ _ _ => i

def OUNode.name : OUNode → String
  | .mk _ n _ _ _ => n

def OUNode.policies : OUNode → List String
  | .mk _ _ p _ _ => p

def OUNode.accounts : OUNode → List AccountNode
  | .mk _ _ _ a _ => a

def OUNode.ous : OUNode → List OUNode
  | .mk _ _ _ _ o => o

@[simp]
theorem OUNode.id_mk (i n : String) (p : List String) (a : List AccountNode)
    (o : List OUNode) : (OUNode.mk i n p a o).id = i := rfl

@[simp]
theorem OUNode.name_mk (i n : String) (p : List String) (a : List AccountNode)
    (o : List OUNode) : (OUNode.mk i n p a o).name = n := rfl

@[simp]
theorem OUNode.policies_mk (i n : String) (p : List String) (a : List AccountNode)
    (o : List OUNode) : (OUNode.mk i n p a o).policies = p := rfl

@[simp]
theorem OUNode.accounts_mk (i n : String) (p : List String) (a : List AccountNode)
    (o : List OUNode) : (OUNode.mk i n p a o).accounts = a := rfl

@[simp]
theorem OUNode.ous_mk (i n : String) (p : List String) (a : List AccountNode)
    (o : List OUNode) : (OUNode.mk i n p a o).ous = o := rfl

mutual

/-- All internal nodes of a subtree, the subtree's own root first. -/
def OUNode.allOUs : OUNode → List OUNode
  | .mk i n p a o => OUNode.mk i n p a o :: allOUsF o
termination_by u => sizeOf u

/-- `OUNode.allOUs` over a forest. -/
def allOUsF : List OUNode → List OUNode
  | [] => []
  | v :: vs => OUNode.allOUs v ++ allOUsF vs
termination_by l => sizeOf l

end

mutual

/-- All accounts of a subtree. -/
def OUNode.allAccounts : OUNode → List AccountNode
  | .mk _ _ _ a o => a ++ allAccountsF o
termination_by u => sizeOf u

/-- `OUNode.allAccounts` over a forest. -/
def allAccountsF : List OUNode → List AccountNode
  | [] => []
  | v :: vs => OUNode.allAccounts v ++ allAccountsF vs
termination_by l => sizeOf l

end

mutual

/-- Ids of the strict descendants of a node in full-tree-walk emission
order: direct child accounts first, then per child OU its id followed by
its own strict descendants. -/
def OUNode.preIds : OUNode → List String
  | .mk _ _ _ a o => a.map AccountNode.id ++ preIdsF o
termination_by u => sizeOf u

/-- `OUNode.preIds` over a forest: each root's id followed by its strict
descendants. -/
def preIdsF : List OUNode → List String
  | [] => []
  | v :: vs => (v.id :: OUNode.preIds v) ++ preIdsF vs
termination_by l => sizeOf l

end

mutual

/-- `(id, directly attached policies)` of every node of a subtree. -/
def OUNode.polPairs : OUNode → List (String × List String)
  | .mk i _ p a o => (i, p) :: a.map (fun x => (x.id, x.policies)) ++ polPairsF o
termination_by u => sizeOf u

/-- `OUNode.polPairs` over a forest. -/
def polPairsF : List OUNode → List (String × List String)
  | [] => []
  | v :: vs => OUNode.polPairs v ++ polPairsF vs
termination_by l => sizeOf l

end

mutual

/-- `(child id, parent id)` for every parent-child edge of a subtree. -/
def OUNode.parentPairs : OUNode → List (String × String)
  | .mk i _ _ a o =>
    a.map (fun x => (x.id, i)) ++ o.map (fun v => (v.id, i)) ++ parentPairsF o
termination_by u => sizeOf u

/-- `OUNode.parentPairs` over a forest. -/
def parentPairsF : List OUNode → List (String × String)
  | [] => []
  | v :: vs => OUNode.parentPairs v ++ parentPairsF vs
termination_by l => sizeOf l

end

/-- An organization snapshot: the Root node plus the organization's
master (management) account id. -/
structure OrgTree where
  root : OUNode
  masterId : String

/-- The collaborator derived from a tree snapshot: every lookup answers
from the tree, unknown ids answer with an API error. -/
def Org.ofTree (t : OrgTree) : Org where
  listRootsApi := Except.ok [t.root.id]
  listChildrenApi := fun pid ct =>
    match (OUNode.allOUs t.root).find? (fun u => u.id == pid) with
    | some u =>
      match ct with
      | ChildType.account => Except.ok (u.accounts.map AccountNode.id)
      | ChildType.organizationalUnit => Except.ok (u.ous.map OUNode.id)
    | none => Except.error "ParentNotFoundException"
  describeAccountApi := fun aid =>
    match (OUNode.allAccounts t.root).find? (fun a => a.id == aid) with
    | some a => Except.ok a.name
    | none => Except.error "AccountNotFoundException"
  describeOUApi := fun oid =>
    match (OUNode.allOUs t.root).find? (fun u => u.id == oid) with
    | some u => Except.ok u.name
    | none => Except.error "OrganizationalUnitNotFoundException"
  listPoliciesApi := fun tid =>
    match (OUNode.polPairs t.root).find? (fun p => p.1 == tid) with
    | some p => Except.ok p.2
    | none => Except.error "TargetNotFoundException"
  listParentsApi := fun cid =>
    match (OUNode.parentPairs t.root).find? (fun p => p.1 == cid) with
    | some p => Except.ok [p.2]
    | none => Except.error "ChildNotFoundException"
  describeOrganizationApi := Except.ok t.masterId

/-- The id-shape tests `aws.go` performs, with the answers an account id
has: `strconv.Atoi`-parsable of length 12, no `r-`/`ou-` prefix. -/
def AccShaped (id : String) : Prop :=
  (atoiOk id && id.length == 12) = true ∧
  goStartsWith id "r-" = false ∧ goStartsWith id "ou-" = false

/-- Shape facts of an OU id: `ou-` prefixed, hence neither numeric nor
`r-` prefixed. -/
def OUShaped (id : String) : Prop :=
  (atoiOk id && id.length == 12) = false ∧
  goStartsWith id "r-" = false ∧ goStartsWith id "ou-" = true

/-- Shape facts of the root id: `r-` prefixed, not numeric. -/
def RootShaped (id : String) : Prop :=
  (atoiOk id && id.length == 12) = false ∧ goStartsWith id "r-" = true

/-- Well-formed snapshot: ids have their kind's shape and all node ids
are pairwise distinct. -/
structure WF (t : OrgTree) : Prop where
  rootShape : RootShaped t.root.id
  ouShapes : ∀ u ∈ OUNode.allOUs t.root, ∀ v ∈ u.ous, OUShaped v.id
  accShapes : ∀ u ∈ OUNode.allOUs t.root, ∀ a ∈ u.accounts, AccShaped a.id
  nodupIds : (t.root.id :: OUNode.preIds t.root).Nodup

/-! ## Deduplication: the Go loop vs. the spec's words -/

/-- Modelled from the spec: "deduplicated by policy name while preserving
first occurrence" — keep each name's first occurrence, erase the later
ones.  This is the spec-side definition `dedupFirst` is compared with. -/
def specDedup : List String → List String
  | [] => []
  | x :: xs => x :: specDedup (xs.filter (fun y => decide (y ≠ x)))
termination_by l => l.length
decreasing_by
  exact Nat.lt_succ_of_le (List.length_filter_le _ _)

@[simp]
theorem specDedup_nil : specDedup [] = [] := by
  simp [specDedup]

theorem specDedup_cons (x : String) (xs : List String) :
    specDedup (x :: xs) = x :: specDedup (xs.filter (fun y => decide (y ≠ x))) := by
  simp [specDedup]

theorem mem_specDedup {x : String} : ∀ {l : List String}, x ∈ specDedup l → x ∈ l
  | [], h => by simp [specDedup] at h
  | y :: ys, h => by
    rw [specDedup_cons] at h
    rcases List.mem_cons.mp h with h | h
    · exact h ▸ List.mem_cons_self _ _
    · exact List.mem_cons_of_mem _ (List.mem_of_mem_filter (mem_specDedup h))
termination_by l => l.length
decreasing_by
  exact Nat.lt_succ_of_le (List.length_filter_le _ _)

theorem specDedup_nodup : ∀ (l : List String), (specDedup l).Nodup
  | [] => by simp
  | y :: ys => by
    rw [specDedup_cons]
    refine List.nodup_cons.mpr ⟨fun hy => ?_, specDedup_nodup _⟩
    have h := List.of_mem_filter (mem_specDedup hy)
    simp at h
termination_by l => l.length
decreasing_by
  exact Nat.lt_succ_of_le (List.length_filter_le _ _)

theorem dedupFirstGo_eq (l : List String) :
    ∀ acc : List String,
      dedupFirstGo l acc = acc ++ specDedup (l.filter (fun y => decide (y ∉ acc))) := by
  induction l with
  | nil => intro acc; simp [dedupFirstGo]
  | cons x xs ih =>
    intro acc
    by_cases hx : x ∈ acc
    · rw [dedupFirstGo, if_pos hx, ih]
      simp [List.filter_cons, hx]
    · rw [dedupFirstGo, if_neg hx, ih]
      have hfilter :
          xs.filter (fun y => decide (y ∉ acc ++ [x])) =
            (xs.filter (fun y => decide (y ∉ acc))).filter (fun y => decide (y ≠ x)) := by
        rw [List.filter_filter]
        apply List.filter_congr
        intro y _
        by_cases h1 : y ∈ acc <;> by_cases h2 : y = x <;>
          simp [h1, h2]
      rw [hfilter]
      simp [List.filter_cons, hx, specDedup_cons, List.append_assoc]

/-- The Go dedup loop computes exactly the spec's keep-first dedup. -/
theorem dedupFirst_eq_specDedup (l : List String) : dedupFirst l = specDedup l := by
  have := dedupFirstGo_eq l []
  simpa [dedupFirst] using this

/-- The displayed SCP name list never contains a duplicate. -/
theorem dedupFirst_nodup (l : List String) : (dedupFirst l).Nodup := by
  rw [dedupFirst_eq_specDedup]; exact specDedup_nodup l

/-! ## Concrete collaborators used as test inputs -/

/-- A collaborator all of whose lookups fail; concrete orgs below
override the fields they need. -/
def stubOrg : Org where
  listRootsApi := Except.error "stub"
  listChildrenApi := fun _ _ => Except.error "stub"
  describeAccountApi := fun _ => Except.error "stub"
  describeOUApi := fun _ => Except.error "stub"
  listPoliciesApi := fun _ => Except.error "stub"
  listParentsApi := fun _ => Except.error "stub"
  describeOrganizationApi := Except.error "stub"

/-- A collaborator that resolves any account name to `payer` and any OU
name to `Prod`. -/
def probeOrg : Org := { stubOrg with
  describeAccountApi := fun _ => Except.ok "payer"
  describeOUApi := fun _ => Except.ok "Prod" }

/-- An organization whose `listRoots` reports two roots. -/
def twoRootsOrg : Org := { stubOrg with
  listRootsApi := Except.ok ["r-one", "r-two"] }

/-- One root `r-m` with one member account, but `DescribeOrganization`
fails with an access error. -/
def mgmtErrOrg : Org := { stubOrg with
  listRootsApi := Except.ok ["r-m"]
  listChildrenApi := fun pid ct =>
    match pid, ct with
    | "r-m", ChildType.account => Except.ok ["111122223333"]
    | "r-m", ChildType.organizationalUnit => Except.ok []
    | _, _ => Except.error "ParentNotFoundException"
  describeAccountApi := fun _ => Except.ok "payer"
  listPoliciesApi := fun tid =>
    match tid with
    | "r-m" => Except.ok []
    | "111122223333" => Except.ok ["P1"]
    | _ => Except.error "TargetNotFoundException"
  listParentsApi := fun _ => Except.ok ["r-m"]
  describeOrganizationApi := Except.error "AccessDeniedException" }

/-- One root `r-p` with a single member account `111122223333`. -/
def pathOrg : Org := { mgmtErrOrg with
  listRootsApi := Except.ok ["r-p"]
  listChildrenApi := fun pid ct =>
    match pid, ct with
    | "r-p", ChildType.account => Except.ok ["111122223333"]
    | "r-p", ChildType.organizationalUnit => Except.ok []
    | _, _ => Except.error "ParentNotFoundException"
  listPoliciesApi := fun tid =>
    match tid with
    | "r-p" => Except.ok []
    | "111122223333" => Except.ok ["P1"]
    | _ => Except.error "TargetNotFoundException"
  listParentsApi := fun _ => Except.ok ["r-p"]
  describeOrganizationApi := Except.ok "999988887777" }

/-- One root `r-t` with two member accounts. -/
def twoAcctOrg : Org := { pathOrg with
  listRootsApi := Except.ok ["r-t"]
  listChildrenApi := fun pid ct =>
    match pid, ct with
    | "r-t", ChildType.account => Except.ok ["111122223333", "444455556666"]
    | "r-t", ChildType.organizationalUnit => Except.ok []
    | _, _ => Except.error "ParentNotFoundException"
  listPoliciesApi := fun _ => Except.ok []
  listParentsApi := fun _ => Except.ok ["r-t"] }

/-! ## C10: id-shape classification of `getNameByID` -/

/-- C10: `getNameByID` classifies identifiers purely by shape, exactly as
the code's `if` chain does: an id that `strconv.Atoi`-parses and has
length 12 is described as an Account (the `DescribeAccount` call is made
and its error, if any, is wrapped); otherwise an `r-`-prefixed id returns
the constant `"Root"` with the state untouched — no collaborator call;
every other id (malformed ones included) falls through to the OU lookup
rather than being rejected. -/
theorem getNameByID_shape_classification (org : Org) (entityID : String) (s : S) :
    ((atoiOk entityID && entityID.length == 12) = true →
      getNameByID org entityID s =
        match org.describeAccountApi entityID with
        | Except.ok n =>
          (Except.ok n, { s with calls := s.calls ++ [CallEv.descAccount entityID] })
        | Except.error e =>
          (Except.error ("error getting account: " ++ e),
           { s with calls := s.calls ++ [CallEv.descAccount entityID] })) ∧
    ((atoiOk entityID && entityID.length == 12) = false →
      goStartsWith entityID "r-" = true →
      getNameByID org entityID s = (Except.ok "Root", s)) ∧
    ((atoiOk entityID && entityID.length == 12) = false →
      goStartsWith entityID "r-" = false →
      getNameByID org entityID s =
        match org.describeOUApi entityID with
        | Except.ok n =>
          (Except.ok n, { s with calls := s.calls ++ [CallEv.descOU entityID] })
        | Except.error e =>
          (Except.error ("error getting OU: " ++ e),
           { s with calls := s.calls ++ [CallEv.descOU entityID] })) := by
  refine ⟨fun h => ?_, fun h hr => ?_, fun h hr => ?_⟩
  · rw [getNameByID, if_pos h]
    cases hapi : org.describeAccountApi entityID <;>
      simp [wrapErr, getAccount, hapi]
  · rw [getNameByID, if_neg (by simp [h]), if_pos hr]
    rfl
  · rw [getNameByID, if_neg (by simp [h]), if_neg (by simp [hr])]
    cases hapi : org.describeOUApi entityID <;>
      simp [wrapErr, getOU, hapi]

/-- C10 witness: the three branches evaluated on concrete ids. -/
theorem getNameByID_shape_classification_witness :
    getNameByID probeOrg "123456789012" S0 =
      (Except.ok "payer", { S0 with calls := [CallEv.descAccount "123456789012"] }) ∧
    getNameByID probeOrg "r-abc" S0 = (Except.ok "Root", S0) ∧
    getNameByID probeOrg "ou-abc" S0 =
      (Except.ok "Prod", { S0 with calls := [CallEv.descOU "ou-abc"] }) := by
  refine ⟨?_, ?_, ?_⟩
  · exact (getNameByID_shape_classification probeOrg "123456789012" S0).1 (by decide)
  · exact (getNameByID_shape_classification probeOrg "r-abc" S0).2.1 (by decide) (by decide)
  · exact (getNameByID_shape_classification probeOrg "ou-abc" S0).2.2 (by decide) (by decide)

/-! ## C6: root resolution -/

/-- C6 counterexample: against the claim that more than one root is an
explicit unsupported-configuration error, `getRootID` on a two-root
organization succeeds and silently returns the first root. -/
theorem getRootID_multiRoot_counterexample :
    getRootID twoRootsOrg S0 = (Except.ok "r-one", { S0 with calls := [CallEv.listRoots] }) := rfl

/-- C6 (amended): root resolution propagates a `listRoots` API failure,
fails with `no roots found in the organization` on an empty root list,
and otherwise returns the first root — additional roots are silently
ignored, not reported as a configuration error. -/
theorem getRootID_first_root_spec (org : Org) (s : S) :
    (∀ e, org.listRootsApi = Except.error e →
      getRootID org s = (Except.error e, { s with calls := s.calls ++ [CallEv.listRoots] })) ∧
    (org.listRootsApi = Except.ok [] →
      getRootID org s =
        (Except.error "no roots found in the organization",
         { s with calls := s.calls ++ [CallEv.listRoots] })) ∧
    (∀ r rs, org.listRootsApi = Except.ok (r :: rs) →
      getRootID org s = (Except.ok r, { s with calls := s.calls ++ [CallEv.listRoots] })) := by
  refine ⟨fun e he => ?_, fun he => ?_, fun r rs he => ?_⟩ <;>
    simp [getRootID, he]

/-- C6 witness: the three root-resolution outcomes on concrete inputs. -/
theorem getRootID_first_root_spec_witness :
    getRootID stubOrg S0 = (Except.error "stub", { S0 with calls := [CallEv.listRoots] }) ∧
    getRootID { stubOrg with listRootsApi := Except.ok [] } S0 =
      (Except.error "no roots found in the organization",
       { S0 with calls := [CallEv.listRoots] }) ∧
    getRootID twoRootsOrg S0 = (Except.ok "r-one", { S0 with calls := [CallEv.listRoots] }) := by
  refine ⟨?_, ?_, ?_⟩
  · exact (getRootID_first_root_spec stubOrg S0).1 "stub" rfl
  · exact (getRootID_first_root_spec { stubOrg with listRootsApi := Except.ok [] } S0).2.1 rfl
  · exact (getRootID_first_root_spec twoRootsOrg S0).2.2 "r-one" ["r-two"] rfl

/-! ## C8: the json/dot placeholders -/

/-- C8 counterexample: against the claim that no collaborator call is
made for `json`/`dot`, the `json` run issues a `listRoots` call (root
resolution happens before the format switch). -/
theorem describeAccount_json_call_counterexample :
    describeAccount { stubOrg with listRootsApi := Except.ok ["r-x"] } 5 "json" "all" S0 =
      (Except.ok (), { out := ["JSON Output\n"], visited := [], calls := [CallEv.listRoots] }) ∧
    (describeAccount { stubOrg with listRootsApi := Except.ok ["r-x"] } 5 "json" "all" S0).2.calls ≠
      [] := by
  exact ⟨rfl, by decide⟩

/-- C8 (amended): for the `json` and `dot` formats the engine is never
invoked — when root resolution succeeds the run prints exactly the
placeholder marker and exits successfully having made only the
`listRoots` collaborator call; but that call is made before the format
switch, and its failure (API error or empty root list) aborts the run
with an error instead of printing the placeholder. -/
theorem describeAccount_placeholder_spec (org : Org) (fuel : Nat) (target : String)
    (s : S) (fmt : String) (hfmt : fmt = "json" ∨ fmt = "dot") :
    (∀ r rs, org.listRootsApi = Except.ok (r :: rs) →
      describeAccount org fuel fmt target s =
        (Except.ok (),
         { s with out := s.out ++ [if fmt = "json" then "JSON Output\n" else "Dot Output\n"],
                  calls := s.calls ++ [CallEv.listRoots] })) ∧
    (∀ e, org.listRootsApi = Except.error e →
      describeAccount org fuel fmt target s =
        (Except.error ("couldn't get organization's root ID: " ++ e),
         { s with calls := s.calls ++ [CallEv.listRoots] })) ∧
    (org.listRootsApi = Except.ok [] →
      describeAccount org fuel fmt target s =
        (Except.error "couldn't get organization's root ID: no roots found in the organization",
         { s with calls := s.calls ++ [CallEv.listRoots] })) := by
  rcases hfmt with h | h <;> subst h <;>
    refine ⟨fun r rs he => ?_, fun e he => ?_, fun he => ?_⟩ <;>
    simp [describeAccount, getRootID, wrapErr, he, displayOrganizationTreeJSON,
      displayOrganizationTreeDot]

/-- C8 witness: placeholder runs and a failing-root run, concretely. -/
theorem describeAccount_placeholder_spec_witness :
    describeAccount { stubOrg with listRootsApi := Except.ok ["r-x"] } 5 "dot" "all" S0 =
      (Except.ok (), { out := ["Dot Output\n"], visited := [], calls := [CallEv.listRoots] }) ∧
    describeAccount stubOrg 5 "dot" "all" S0 =
      (Except.error "couldn't get organization's root ID: stub",
       { S0 with calls := [CallEv.listRoots] }) := by
  constructor
  · exact (describeAccount_placeholder_spec { stubOrg with listRootsApi := Except.ok ["r-x"] }
      5 "all" S0 "dot" (Or.inr rfl)).1 "r-x" [] rfl
  · exact (describeAccount_placeholder_spec stubOrg 5 "all" S0 "dot" (Or.inr rfl)).2.1 "stub" rfl

/-! ## C4: error propagation and the management-account check -/

/-! Concrete id-shape facts used to evaluate the runs below. -/

theorem atoiOk_acct1 : atoiOk "111122223333" = true := by decide

theorem atoiOk_acct2 : atoiOk "444455556666" = true := by decide

theorem len_acct1 : "111122223333".length = 12 := rfl

theorem len_acct2 : "444455556666".length = 12 := rfl

theorem pre_acct1_r : goStartsWith "111122223333" "r-" = false := by decide

theorem pre_acct2_r : goStartsWith "444455556666" "r-" = false := by decide

theorem pre_acct1_ou : goStartsWith "111122223333" "ou-" = false := by decide

theorem pre_root_m : goStartsWith "r-m" "r-" = true := by decide

theorem pre_root_p : goStartsWith "r-p" "r-" = true := by decide

theorem pre_root_t : goStartsWith "r-t" "r-" = true := by decide

theorem atoiOk_root_p : atoiOk "r-p" = false := by decide

theorem intercalate_P1 : String.intercalate ", " ["P1"] = "P1" := rfl

/-- C4 counterexample: `DescribeOrganization` fails, the failure is a
collaborator failure encountered during the walk (the `descOrg` call is
in the trace), and yet the whole-tree walk succeeds — the error was
swallowed and `false` substituted, so the account renders unmarked. -/
theorem isManagementAccount_swallow_counterexample :
    mgmtErrOrg.describeOrganizationApi = Except.error "AccessDeniedException" ∧
    printEntireOrg mgmtErrOrg 5 "r-m" indent S0 =
      (Except.ok (),
       { out := ["    |-- Account: payer [111122223333] (SCPs: P1)\n"],
         visited := ["111122223333"],
         calls := [CallEv.listChildren "r-m" ChildType.account,
                   CallEv.listChildren "r-m" ChildType.organizationalUnit,
                   CallEv.descOrg,
                   CallEv.descAccount "111122223333",
                   CallEv.listPolicies "111122223333",
                   CallEv.listParents "111122223333",
                   CallEv.listPolicies "r-m"] }) := by
  refine ⟨rfl, ?_⟩
  simp [printEntireOrg, printEntireOrgLoop, printEntireOrgAccounts, printEntireOrgOUs,
    listChildren, mgmtErrOrg, stubOrg, isManagementAccount, getNameByID, getAccount,
    getOU, wrapErr, listAllSCPsForChild, listSCPsForTarget, listParentOUs, scpsOfParents,
    dedupFirst, dedupFirstGo, accountLine, ouLine, S0, atoiOk_acct1, len_acct1,
    pre_acct1_r, pre_root_m, indent, intercalate_P1]

/-- C4 (amended): collaborator failures in the traversal and
policy-resolution operations are surfaced to the caller with the failing
operation's context and halt the run — a failing child-account listing
aborts the walk before any further output, and a failing direct-policy
listing aborts SCP resolution — with one exception: the
management-account check never propagates; when `DescribeOrganization`
fails it swallows the error and returns `false`. -/
theorem error_propagation_except_mgmt_check (org : Org) (s : S) :
    (∀ accountID e, org.describeOrganizationApi = Except.error e →
      isManagementAccount org accountID s =
        (Except.ok false, { s with calls := s.calls ++ [CallEv.descOrg] })) ∧
    (∀ parentID rest pfx fuel e,
      org.listChildrenApi parentID ChildType.account = Except.error e →
      printEntireOrgLoop org (fuel + 1) (parentID :: rest) pfx s =
        (Except.error ("error listing accounts: " ++ e),
         { s with calls := s.calls ++ [CallEv.listChildren parentID ChildType.account] })) ∧
    (∀ childID fuel e, org.listPoliciesApi childID = Except.error e →
      listAllSCPsForChild org (fuel + 1) childID s =
        (Except.error e, { s with calls := s.calls ++ [CallEv.listPolicies childID] })) := by
  refine ⟨fun accountID e he => ?_, fun parentID rest pfx fuel e he => ?_,
    fun childID fuel e he => ?_⟩
  · simp [isManagementAccount, he]
  · simp [printEntireOrgLoop, listChildren, wrapErr, he]
  · simp [listAllSCPsForChild, listSCPsForTarget, he]

/-- C4 witness: the three propagation behaviours on concrete inputs. -/
theorem error_propagation_except_mgmt_check_witness :
    isManagementAccount mgmtErrOrg "111122223333" S0 =
      (Except.ok false, { S0 with calls := [CallEv.descOrg] }) ∧
    printEntireOrgLoop stubOrg 5 ["r-z"] indent S0 =
      (Except.error "error listing accounts: stub",
       { S0 with calls := [CallEv.listChildren "r-z" ChildType.account] }) ∧
    listAllSCPsForChild stubOrg 5 "111122223333" S0 =
      (Except.error "stub", { S0 with calls := [CallEv.listPolicies "111122223333"] }) := by
  refine ⟨?_, ?_, ?_⟩
  · exact (error_propagation_except_mgmt_check mgmtErrOrg S0).1 "111122223333"
      "AccessDeniedException" rfl
  · exact (error_propagation_except_mgmt_check stubOrg S0).2.1 "r-z" [] indent 4 "stub" rfl
  · exact (error_propagation_except_mgmt_check stubOrg S0).2.2 "111122223333" 4 "stub" rfl

/-! ## C5 counterexample: not-found exits like success -/

/-- C5 counterexample: when the BFS queue is exhausted the run prints an
informational message but returns `Except.ok ()` — exactly the same
success result a found path returns, against the claim that the NotFound
outcome's exit behaviour differs from success. -/
theorem printPathToAccount_notfound_exit_counterexample :
    (printPathToAccount pathOrg 5 "r-p" "999988887777" S0).1 = Except.ok () ∧
    (printPathToAccount pathOrg 5 "r-p" "999988887777" S0).2.out =
      ["Target account ID 999988887777 was not found in the organization"] ∧
    (printPathToAccount pathOrg 5 "r-p" "111122223333" S0).1 = Except.ok () := by
  refine ⟨?_, ?_, ?_⟩ <;>
    simp [printPathToAccount, printPathToAccountLoop, pathScanAccounts, pathEnqueueOUs,
      goAppend, readSlice, writeAt, Heap.lookup, printPathLines, listChildren,
      pathOrg, mgmtErrOrg, stubOrg, isManagementAccount, getNameByID, getAccount, getOU,
      wrapErr, listAllSCPsForChild, listSCPsForTarget, listParentOUs, scpsOfParents,
      dedupFirst, dedupFirstGo, accountLine, ouLine, rootLine, S0, atoiOk_acct1,
      len_acct1, pre_acct1_r, pre_acct1_ou, pre_root_p, atoiOk_root_p, indent,
      intercalate_P1]

/-! ## C9 counterexample: one `DescribeOrganization` call per account -/

/-- C9 counterexample: a single walk over an organization with two
accounts issues two `DescribeOrganization` calls — the master account id
is re-fetched per account, not fetched once per invocation and cached. -/
theorem describeOrganization_calls_grow_counterexample :
    ((printEntireOrg twoAcctOrg 5 "r-t" indent S0).2.calls.count CallEv.descOrg) = 2 ∧
    (printEntireOrg twoAcctOrg 5 "r-t" indent S0).1 = Except.ok () := by
  constructor <;>
    simp [printEntireOrg, printEntireOrgLoop, printEntireOrgAccounts, printEntireOrgOUs,
      listChildren, twoAcctOrg, pathOrg, mgmtErrOrg, stubOrg, isManagementAccount,
      getNameByID, getAccount, getOU, wrapErr, listAllSCPsForChild, listSCPsForTarget,
      listParentOUs, scpsOfParents, dedupFirst, dedupFirstGo, accountLine, ouLine,
      S0, List.count, atoiOk_acct1, atoiOk_acct2, len_acct1, len_acct2, pre_root_t,
      pre_acct1_r, pre_acct2_r]

/-! ## Canonical walk entries and rendering -/

/-- Four spaces per depth level: the indent of a node at depth `d`. -/
def indentOf : Nat → String
  | 0 => ""
  | d + 1 => indentOf d ++ indent

/-- What `isManagementAccount` answers for an account id: comparison with
the master account id, or `false` when `DescribeOrganization` fails. -/
def mgmtFlag (org : Org) (accountID : String) : Bool :=
  match org.describeOrganizationApi with
  | Except.ok master => master == accountID
  | Except.error _ => false

@[simp]
theorem isManagementAccount_run (org : Org) (accountID : String) (s : S) :
    isManagementAccount org accountID s =
      (Except.ok (mgmtFlag org accountID), { s with calls := s.calls ++ [CallEv.descOrg] }) := by
  cases h : org.describeOrganizationApi <;> simp [isManagementAccount, mgmtFlag, h]

/-- One rendered node of the tree output: the root line, an OU line at a
depth, or an account line at a depth with its management flag and its raw
(pre-dedup) resolved SCP name list. -/
inductive VEntry where
  | root (id : String)
  | ou (depth : Nat) (name id : String)
  | acct (depth : Nat) (name id : String) (isMgmt : Bool) (raw : List String)
deriving DecidableEq, Repr

/-- The id a rendered entry stands for. -/
def VEntry.entryId : VEntry → String
  | .root id => id
  | .ou _ _ id => id
  | .acct _ _ id _ _ => id

/-- The tree depth a rendered entry is displayed at. -/
def VEntry.depthOf : VEntry → Nat
  | .root _ => 0
  | .ou d _ _ => d
  | .acct d _ _ _ _ => d

/-- Render one entry exactly as `aws.go` prints it. -/
def renderEntry : VEntry → String
  | .root id => rootLine "" id
  | .ou d name id => ouLine (indentOf d) name id
  | .acct d name id isMgmt raw =>
    accountLine (indentOf d) (if isMgmt then name ++ " (Management Account)" else name) id
      (dedupFirst raw)

theorem allOUs_eq (u : OUNode) : OUNode.allOUs u = u :: allOUsF u.ous := by
  cases u; simp [OUNode.allOUs]

theorem allAccounts_eq (u : OUNode) :
    OUNode.allAccounts u = u.accounts ++ allAccountsF u.ous := by
  cases u; simp [OUNode.allAccounts]

theorem preIds_eq (u : OUNode) :
    OUNode.preIds u = u.accounts.map AccountNode.id ++ preIdsF u.ous := by
  cases u; simp [OUNode.preIds]

theorem polPairs_eq (u : OUNode) :
    OUNode.polPairs u =
      (u.id, u.policies) :: u.accounts.map (fun x => (x.id, x.policies)) ++
        polPairsF u.ous := by
  cases u; simp [OUNode.polPairs]

theorem parentPairs_eq (u : OUNode) :
    OUNode.parentPairs u =
      u.accounts.map (fun x => (x.id, u.id)) ++ u.ous.map (fun v => (v.id, u.id)) ++
        parentPairsF u.ous := by
  cases u; simp [OUNode.parentPairs]

mutual

/-- The canonical emission sequence of the full-tree walk below a node at
depth `d` whose inherited (ancestor) policy chain is `inh`, management
flag per `mg`: all direct child accounts first, then each child OU
followed recursively by its own subtree. -/
def walkEntries (mg : String → Bool) : OUNode → Nat → List String → List VEntry
  | .mk _ _ _ accs ous, d, inh =>
    accs.map (fun a => VEntry.acct d a.name a.id (mg a.id) (a.policies ++ inh)) ++
      walkEntriesF mg ous d inh
termination_by u => sizeOf u

/-- `walkEntries` over a forest of sibling OUs. -/
def walkEntriesF (mg : String → Bool) : List OUNode → Nat → List String → List VEntry
  | [], _, _ => []
  | v :: vs, d, inh =>
    (VEntry.ou d v.name v.id :: walkEntries mg v (d + 1) (v.policies ++ inh)) ++
      walkEntriesF mg vs d inh
termination_by l => sizeOf l

end

theorem walkEntries_eq (mg : String → Bool) (u : OUNode) (d : Nat) (inh : List String) :
    walkEntries mg u d inh =
      u.accounts.map (fun a => VEntry.acct d a.name a.id (mg a.id) (a.policies ++ inh)) ++
        walkEntriesF mg u.ous d inh := by
  cases u; simp [walkEntries]

mutual

/-- The walk entries' ids are exactly the subtree's `preIds`. -/
theorem walkEntries_map_id (mg : String → Bool) (u : OUNode) (d : Nat) (inh : List String) :
    (walkEntries mg u d inh).map VEntry.entryId = OUNode.preIds u := by
  simp [walkEntries_eq, preIds_eq, walkEntriesF_map_id mg u.ous d inh,
    Function.comp_def, VEntry.entryId]
termination_by sizeOf u
decreasing_by cases u; simp

/-- Forest version of `walkEntries_map_id`. -/
theorem walkEntriesF_map_id (mg : String → Bool) (vs : List OUNode) (d : Nat)
    (inh : List String) : (walkEntriesF mg vs d inh).map VEntry.entryId = preIdsF vs := by
  match vs with
  | [] => simp [walkEntriesF, preIdsF]
  | v :: rest =>
    rw [walkEntriesF, preIdsF]
    simp only [List.map_append, List.map_cons]
    rw [walkEntries_map_id mg v (d + 1), walkEntriesF_map_id mg rest d inh]
    simp [VEntry.entryId]
termination_by sizeOf vs

end

mutual

/-- `preIds` counts every account and every strict-descendant OU once. -/
theorem preIds_length (u : OUNode) :
    (OUNode.preIds u).length =
      (OUNode.allAccounts u).length + (allOUsF u.ous).length := by
  rw [preIds_eq, allAccounts_eq]
  simp only [List.length_append, List.length_map]
  rw [preIdsF_length u.ous]
  omega
termination_by sizeOf u
decreasing_by cases u; simp

/-- Forest version of `preIds_length`. -/
theorem preIdsF_length (vs : List OUNode) :
    (preIdsF vs).length = (allAccountsF vs).length + (allOUsF vs).length := by
  match vs with
  | [] => simp [preIdsF, allAccountsF, allOUsF]
  | v :: rest =>
    rw [preIdsF, allAccountsF, allOUsF]
    simp only [List.length_append, List.length_cons]
    rw [preIds_length v, preIdsF_length rest, allOUs_eq]
    simp only [List.length_cons]
    omega
termination_by sizeOf vs

end

/-! ## Abstract run behaviour of SCP resolution -/

/-- `listAllSCPsForChild` at `id` succeeds for all sufficient fuel with a
fixed raw (pre-dedup) name list and a fixed call trace that contains no
`DescribeOrganization` call. -/
def ScpOK (org : Org) (id : String) (raw : List String) : Prop :=
  ∃ N cs, List.count CallEv.descOrg cs = 0 ∧
    ∀ fuel, N ≤ fuel → ∀ s : S,
      listAllSCPsForChild org fuel id s =
        (Except.ok raw, { s with calls := s.calls ++ cs })

/-- The collaborator agrees with a subtree: at each node the child
listings answer exactly the node's children, each account resolves to its
name, has account shape and resolvable SCPs (`inh` being the inherited
policy chain at that node), and each child OU resolves to its name and
has OU shape. -/
inductive WalkAgrees (org : Org) : OUNode → List String → Prop where
  | intro (i n : String) (p : List String) (accs : List AccountNode)
      (ous : List OUNode) (inh : List String) :
      org.listChildrenApi i ChildType.account = Except.ok (accs.map AccountNode.id) →
      org.listChildrenApi i ChildType.organizationalUnit = Except.ok (ous.map OUNode.id) →
      (∀ a ∈ accs, org.describeAccountApi a.id = Except.ok a.name ∧ AccShaped a.id ∧
        ScpOK org a.id (a.policies ++ inh)) →
      (∀ v ∈ ous, org.describeOUApi v.id = Except.ok v.name ∧ OUShaped v.id) →
      (∀ v ∈ ous, WalkAgrees org v (v.policies ++ inh)) →
      WalkAgrees org (OUNode.mk i n p accs ous) inh

/-! ## Step lemmas for name resolution -/

theorem getNameByID_accShaped (org : Org) {id name : String} (hsh : AccShaped id)
    (hn : org.describeAccountApi id = Except.ok name) (s : S) :
    getNameByID org id s =
      (Except.ok name, { s with calls := s.calls ++ [CallEv.descAccount id] }) := by
  obtain ⟨h1, _, _⟩ := hsh
  simp [getNameByID, h1, getAccount, wrapErr, hn]

theorem getNameByID_ouShaped (org : Org) {id name : String} (hsh : OUShaped id)
    (hn : org.describeOUApi id = Except.ok name) (s : S) :
    getNameByID org id s =
      (Except.ok name, { s with calls := s.calls ++ [CallEv.descOU id] }) := by
  obtain ⟨h1, h2, _⟩ := hsh
  simp [getNameByID, h1, h2, getOU, wrapErr, hn]

theorem getNameByID_rootShaped (org : Org) {id : String} (hsh : RootShaped id) (s : S) :
    getNameByID org id s = (Except.ok "Root", s) := by
  obtain ⟨h1, h2⟩ := hsh
  simp [getNameByID, h1, h2]

/-! ## The account loop of `printEntireOrg` -/

/-- Skipping already-visited accounts leaves the state untouched and
issues no collaborator call. -/
theorem printEntireOrgAccounts_visited (org : Org) (fuel : Nat) (pfx : String) :
    ∀ (ids : List String) (s : S), (∀ x ∈ ids, x ∈ s.visited) →
      printEntireOrgAccounts org fuel pfx ids s = (Except.ok (), s) := by
  intro ids
  induction ids with
  | nil => intro s _; rw [printEntireOrgAccounts]; rfl
  | cons x xs ih =>
    intro s h
    have hx : x ∈ s.visited := h x (List.mem_cons_self x xs)
    rw [printEntireOrgAccounts]
    simp only [bind_app, getS_app, if_pos hx]
    exact ih s (fun y hy => h y (List.mem_cons_of_mem x hy))

/-- Skipping already-visited child OUs returns the empty worklist
addition and leaves the state untouched. -/
theorem printEntireOrgOUs_visited (org : Org) (recurse : String → M Unit) (pfx : String) :
    ∀ (ids : List String) (s : S), (∀ x ∈ ids, x ∈ s.visited) →
      printEntireOrgOUs org recurse pfx ids s = (Except.ok [], s) := by
  intro ids
  induction ids with
  | nil => intro s _; rw [printEntireOrgOUs]; rfl
  | cons x xs ih =>
    intro s h
    have hx : x ∈ s.visited := h x (List.mem_cons_self x xs)
    rw [printEntireOrgOUs]
    simp only [bind_app, getS_app, if_pos hx]
    exact ih s (fun y hy => h y (List.mem_cons_of_mem x hy))

/-- Processing a list of fresh accounts: one line and one visited mark
per account, in list order, with one `DescribeOrganization` call each. -/
theorem printEntireOrgAccounts_run (org : Org) (d : Nat) (inh : List String) :
    ∀ (accs : List AccountNode),
      (∀ a ∈ accs, org.describeAccountApi a.id = Except.ok a.name ∧ AccShaped a.id ∧
        ScpOK org a.id (a.policies ++ inh)) →
      (accs.map AccountNode.id).Nodup →
      ∃ N cs, List.count CallEv.descOrg cs = accs.length ∧
        ∀ fuel, N ≤ fuel → ∀ s : S, (∀ a ∈ accs, a.id ∉ s.visited) →
          printEntireOrgAccounts org fuel (indentOf d) (accs.map AccountNode.id) s =
            (Except.ok (),
             { out := s.out ++ (accs.map (fun a =>
                 VEntry.acct d a.name a.id (mgmtFlag org a.id) (a.policies ++ inh))).map
                   renderEntry,
               visited := s.visited ++ accs.map AccountNode.id,
               calls := s.calls ++ cs }) := by
  intro accs
  induction accs with
  | nil =>
    intro _ _
    refine ⟨0, [], by simp, fun fuel _ s _ => ?_⟩
    rw [List.map_nil, printEntireOrgAccounts]
    simp
  | cons a rest ih =>
    intro hdata hnodup
    obtain ⟨hname, hsh, Na, csa, hcsa, hscp⟩ := hdata a (List.mem_cons_self a rest)
    obtain ⟨N', cs', hcount', hrun'⟩ :=
      ih (fun x hx => hdata x (List.mem_cons_of_mem a hx)) (List.Nodup.of_cons hnodup)
    refine ⟨max Na N', [CallEv.descOrg, CallEv.descAccount a.id] ++ csa ++ cs', ?_, ?_⟩
    · simp [List.count_append, List.count_cons, hcsa, hcount']
    intro fuel hfuel s hfresh
    have hvis : a.id ∉ s.visited := hfresh a (List.mem_cons_self a rest)
    rw [List.map_cons, printEntireOrgAccounts]
    simp only [bind_app, getS_app, if_neg hvis, isManagementAccount_run, wrapErr_app,
      getNameByID_accShaped org hsh hname, emit_app, markVisited_app,
      hscp fuel (le_trans (le_max_left _ _) hfuel)]
    rw [hrun' fuel (le_trans (le_max_right _ _) hfuel)]
    · simp [List.append_assoc, renderEntry]
    · intro x hx
      have h1 : x.id ∉ s.visited := hfresh x (List.mem_cons_of_mem a hx)
      have h2 : x.id ≠ a.id := by
        intro he
        have : a.id ∈ rest.map AccountNode.id := he ▸ List.mem_map_of_mem AccountNode.id hx
        exact (List.nodup_cons.mp hnodup).1 this
      simp [h1, h2]

/-! ## Membership in `preIds` -/

theorem id_mem_preIdsF {v : OUNode} : ∀ {vs : List OUNode}, v ∈ vs → v.id ∈ preIdsF vs := by
  intro vs hv
  induction vs with
  | nil => cases hv
  | cons w ws ih =>
    rw [preIdsF]
    rcases List.mem_cons.mp hv with h | h
    · subst h; exact List.mem_append_left _ (List.mem_cons_self _ _)
    · exact List.mem_append_right _ (ih h)

theorem mem_preIdsF_of_mem_preIds {x : String} {v : OUNode} :
    ∀ {vs : List OUNode}, v ∈ vs → x ∈ OUNode.preIds v → x ∈ preIdsF vs := by
  intro vs hv hx
  induction vs with
  | nil => cases hv
  | cons w ws ih =>
    rw [preIdsF]
    rcases List.mem_cons.mp hv with h | h
    · subst h; exact List.mem_append_left _ (List.mem_cons_of_mem _ hx)
    · exact List.mem_append_right _ (ih h)

theorem acc_id_mem_preIds {a : AccountNode} {u : OUNode} (ha : a ∈ u.accounts) :
    a.id ∈ OUNode.preIds u := by
  rw [preIds_eq]
  exact List.mem_append_left _ (List.mem_map_of_mem _ ha)

theorem ou_id_mem_preIds {w u : OUNode} (hw : w ∈ u.ous) : w.id ∈ OUNode.preIds u := by
  rw [preIds_eq]
  exact List.mem_append_right _ (id_mem_preIdsF hw)

theorem mem_preIds_of_child {x : String} {w u : OUNode} (hw : w ∈ u.ous)
    (hx : x ∈ OUNode.preIds w) : x ∈ OUNode.preIds u := by
  rw [preIds_eq]
  exact List.mem_append_right _ (mem_preIdsF_of_mem_preIds hw hx)

/-- Inversion: a collaborator that agrees with a subtree answers the
subtree root's child listings. -/
theorem WalkAgrees.children {org : Org} {v : OUNode} {inh : List String}
    (h : WalkAgrees org v inh) :
    org.listChildrenApi v.id ChildType.account = Except.ok (v.accounts.map AccountNode.id) ∧
    org.listChildrenApi v.id ChildType.organizationalUnit =
      Except.ok (v.ous.map OUNode.id) := by
  cases h with
  | intro i n p accs ous inh hca hco _ _ _ => exact ⟨by simpa using hca, by simpa using hco⟩

/-! ## Re-popped worklist entries whose children are all visited -/

/-- Popping worklist entries whose direct children are all already
visited emits nothing, marks nothing, enqueues nothing, and issues only
the two child listings per entry. -/
theorem printEntireOrgLoop_visitedEntries (org : Org) (pfx : String) :
    ∀ (vs : List OUNode),
      (∀ v ∈ vs,
        org.listChildrenApi v.id ChildType.account =
          Except.ok (v.accounts.map AccountNode.id) ∧
        org.listChildrenApi v.id ChildType.organizationalUnit =
          Except.ok (v.ous.map OUNode.id)) →
      ∃ cs, List.count CallEv.descOrg cs = 0 ∧
        ∀ fuel, vs.length + 1 ≤ fuel → ∀ s : S,
          (∀ v ∈ vs, ∀ a ∈ v.accounts, a.id ∈ s.visited) →
          (∀ v ∈ vs, ∀ w ∈ v.ous, w.id ∈ s.visited) →
          printEntireOrgLoop org fuel (vs.map OUNode.id) pfx s =
            (Except.ok (), { s with calls := s.calls ++ cs }) := by
  intro vs
  induction vs with
  | nil =>
    intro _
    refine ⟨[], by simp, fun fuel hfuel s _ _ => ?_⟩
    match fuel, hfuel with
    | f + 1, _ =>
      rw [List.map_nil, printEntireOrgLoop]
      simp
  | cons v rest ih =>
    intro hdata
    obtain ⟨hca, hco⟩ := hdata v (List.mem_cons_self v rest)
    obtain ⟨cs', hcount', hrun'⟩ := ih (fun w hw => hdata w (List.mem_cons_of_mem v hw))
    refine ⟨[CallEv.listChildren v.id ChildType.account,
             CallEv.listChildren v.id ChildType.organizationalUnit] ++ cs',
            by simp [List.count_append, List.count_cons, hcount'], ?_⟩
    intro fuel hfuel s hacc hou
    match fuel, hfuel with
    | f + 1, hfuel =>
      rw [List.map_cons, printEntireOrgLoop]
      simp only [bind_app, wrapErr_app, listChildren, liftApi_ok, hca, hco]
      rw [printEntireOrgAccounts_visited org f pfx (v.accounts.map AccountNode.id) _
        (fun x hx => by
          obtain ⟨a, ha, rfl⟩ := List.mem_map.mp hx
          exact hacc v (List.mem_cons_self v rest) a ha)]
      dsimp only
      rw [printEntireOrgOUs_visited org _ pfx (v.ous.map OUNode.id) _
        (fun x hx => by
          obtain ⟨w, hw, rfl⟩ := List.mem_map.mp hx
          exact hou v (List.mem_cons_self v rest) w hw)]
      dsimp only
      rw [List.append_nil]
      rw [hrun' f (by simpa using hfuel)
        { out := s.out, visited := s.visited,
          calls := s.calls ++ [CallEv.listChildren v.id ChildType.account] ++
            [CallEv.listChildren v.id ChildType.organizationalUnit] }
        (fun w hw a ha => hacc w (List.mem_cons_of_mem v hw) a ha)
        (fun w hw x hx => hou w (List.mem_cons_of_mem v hw) x hx)]
      simp

/-! ## The OU loop of `printEntireOrg` -/

/-- Processing a list of fresh child OUs: each gets its line, its visited
mark, its recursive subtree walk, and its worklist entry, in list order. -/
theorem printEntireOrgOUs_run (org : Org) (d : Nat) (inh : List String) :
    ∀ (vs : List OUNode),
      (∀ v ∈ vs, org.describeOUApi v.id = Except.ok v.name ∧ OUShaped v.id) →
      (∀ v ∈ vs, ∃ N cs,
        List.count CallEv.descOrg cs = (OUNode.allAccounts v).length ∧
        ∀ fuel, N ≤ fuel → ∀ s : S, (∀ x ∈ OUNode.preIds v, x ∉ s.visited) →
          printEntireOrgLoop org fuel [v.id] (indentOf (d + 1)) s =
            (Except.ok (),
             { out := s.out ++ (walkEntries (mgmtFlag org) v (d + 1)
                 (v.policies ++ inh)).map renderEntry,
               visited := s.visited ++ OUNode.preIds v,
               calls := s.calls ++ cs })) →
      (preIdsF vs).Nodup →
      ∃ N cs, List.count CallEv.descOrg cs = (allAccountsF vs).length ∧
        ∀ fuel, N ≤ fuel → ∀ s : S, (∀ x ∈ preIdsF vs, x ∉ s.visited) →
          printEntireOrgOUs org
            (fun childID => printEntireOrgLoop org fuel [childID] (indentOf (d + 1)))
            (indentOf d) (vs.map OUNode.id) s =
            (Except.ok (vs.map OUNode.id),
             { out := s.out ++ (walkEntriesF (mgmtFlag org) vs d inh).map renderEntry,
               visited := s.visited ++ preIdsF vs,
               calls := s.calls ++ cs }) := by
  intro vs
  induction vs with
  | nil =>
    intro _ _ _
    refine ⟨0, [], by simp [allAccountsF], fun fuel _ s _ => ?_⟩
    rw [List.map_nil, printEntireOrgOUs]
    simp [walkEntriesF, preIdsF]
  | cons v rest ih =>
    intro hous hspec hnodup
    obtain ⟨hname, hshape⟩ := hous v (List.mem_cons_self v rest)
    obtain ⟨Nv, csv, hcv, hrv⟩ := hspec v (List.mem_cons_self v rest)
    rw [preIdsF] at hnodup
    obtain ⟨h1, h2, hdisj⟩ := List.nodup_append.mp hnodup
    obtain ⟨N', cs', hc', hr'⟩ := ih (fun w hw => hous w (List.mem_cons_of_mem v hw))
      (fun w hw => hspec w (List.mem_cons_of_mem v hw)) h2
    refine ⟨max Nv N', [CallEv.descOU v.id] ++ csv ++ cs', ?_, ?_⟩
    · simp [List.count_append, List.count_cons, hcv, hc', allAccountsF]
    intro fuel hfuel s hfresh
    have hvid : v.id ∉ s.visited := hfresh v.id
      (by rw [preIdsF]; exact List.mem_append_left _ (List.mem_cons_self _ _))
    rw [List.map_cons, printEntireOrgOUs]
    simp only [bind_app, getS_app, if_neg hvid, wrapErr_app,
      getNameByID_ouShaped org hshape hname, emit_app, markVisited_app]
    rw [hrv fuel (le_trans (le_max_left _ _) hfuel)
      { out := s.out ++ [ouLine (indentOf d) v.name v.id],
        visited := s.visited ++ [v.id],
        calls := s.calls ++ [CallEv.descOU v.id] }
      (fun x hx => by
        have hxn : x ∉ s.visited := hfresh x
          (by rw [preIdsF]; exact List.mem_append_left _ (List.mem_cons_of_mem _ hx))
        have hxv : x ≠ v.id := fun he => (List.nodup_cons.mp h1).1 (he ▸ hx)
        simp [hxn, hxv])]
    dsimp only
    rw [hr' fuel (le_trans (le_max_right _ _) hfuel)
      { out := s.out ++ [ouLine (indentOf d) v.name v.id] ++
          (walkEntries (mgmtFlag org) v (d + 1) (v.policies ++ inh)).map renderEntry,
        visited := s.visited ++ [v.id] ++ OUNode.preIds v,
        calls := s.calls ++ [CallEv.descOU v.id] ++ csv }
      (fun x hx => by
        have hxn : x ∉ s.visited := hfresh x
          (by rw [preIdsF]; exact List.mem_append_right _ hx)
        have hx1 : x ∉ v.id :: OUNode.preIds v := fun hc => hdisj hc hx
        have hxv : x ≠ v.id := fun he => hx1 (he ▸ List.mem_cons_self _ _)
        have hxp : x ∉ OUNode.preIds v := fun hc => hx1 (List.mem_cons_of_mem _ hc)
        simp [hxn, hxv, hxp])]
    dsimp only
    rw [walkEntriesF]
    simp [renderEntry, List.append_assoc, preIdsF]

theorem cons_preIds_sublist {v : OUNode} :
    ∀ {vs : List OUNode}, v ∈ vs → (v.id :: OUNode.preIds v).Sublist (preIdsF vs) := by
  intro vs hv
  induction vs with
  | nil => cases hv
  | cons w ws ih =>
    rw [preIdsF]
    rcases List.mem_cons.mp hv with h | h
    · subst h; exact List.sublist_append_left _ _
    · exact (ih h).trans (List.sublist_append_right _ _)

/-- Main run lemma for the whole-org walk below a node: with enough fuel
the worklist loop started on `[u.id]` succeeds, emits exactly the
canonical walk entries rendered, marks exactly the subtree's ids in
emission order, and issues one `DescribeOrganization` call per account of
the subtree. -/
theorem printEntireOrgLoop_run (org : Org) :
    ∀ (n : Nat) (u : OUNode), sizeOf u ≤ n →
      ∀ (inh : List String) (d : Nat), WalkAgrees org u inh → (OUNode.preIds u).Nodup →
      ∃ N cs, List.count CallEv.descOrg cs = (OUNode.allAccounts u).length ∧
        ∀ fuel, N ≤ fuel → ∀ s : S, (∀ x ∈ OUNode.preIds u, x ∉ s.visited) →
          printEntireOrgLoop org fuel [u.id] (indentOf d) s =
            (Except.ok (),
             { out := s.out ++ (walkEntries (mgmtFlag org) u d inh).map renderEntry,
               visited := s.visited ++ OUNode.preIds u,
               calls := s.calls ++ cs }) := by
  intro n
  induction n with
  | zero => intro u hu; exact absurd hu (by cases u; simp)
  | succ n ih =>
    intro u hu inh d hagree hnodup
    cases hagree with
    | intro i nm p accs ous _inh hca hco haccs hous hrec =>
      rw [preIds_eq] at hnodup
      simp only [OUNode.accounts_mk, OUNode.ous_mk] at hnodup
      obtain ⟨hnacc, hnous, hdisj⟩ := List.nodup_append.mp hnodup
      obtain ⟨Na, csA, hcA, hrA⟩ := printEntireOrgAccounts_run org d inh accs haccs hnacc
      have hchild : ∀ v ∈ ous, ∃ N cs,
          List.count CallEv.descOrg cs = (OUNode.allAccounts v).length ∧
          ∀ fuel, N ≤ fuel → ∀ s : S, (∀ x ∈ OUNode.preIds v, x ∉ s.visited) →
            printEntireOrgLoop org fuel [v.id] (indentOf (d + 1)) s =
              (Except.ok (),
               { out := s.out ++ (walkEntries (mgmtFlag org) v (d + 1)
                   (v.policies ++ inh)).map renderEntry,
                 visited := s.visited ++ OUNode.preIds v,
                 calls := s.calls ++ cs }) := by
        intro v hv
        have hsz : sizeOf v ≤ n := by
          have h1 : sizeOf v < sizeOf ous := List.sizeOf_lt_of_mem hv
          have h2 : sizeOf ous < sizeOf (OUNode.mk i nm p accs ous) := by
            simp
          omega
        have hnv : (OUNode.preIds v).Nodup :=
          ((cons_preIds_sublist hv).nodup hnous).of_cons
        exact ih v hsz (v.policies ++ inh) (d + 1) (hrec v hv) hnv
      obtain ⟨No, csO, hcO, hrO⟩ := printEntireOrgOUs_run org d inh ous hous hchild hnous
      obtain ⟨csR, hcR, hrR⟩ := printEntireOrgLoop_visitedEntries org (indentOf d) ous
        (fun v hv => (hrec v hv).children)
      refine ⟨max (max Na No) (ous.length + 1) + 1,
        [CallEv.listChildren i ChildType.account,
         CallEv.listChildren i ChildType.organizationalUnit] ++ csA ++ csO ++ csR, ?_, ?_⟩
      · rw [allAccounts_eq]
        simp [List.count_append, List.count_cons, hcA, hcO, hcR]
      intro fuel hfuel s hfresh
      have hNa : Na ≤ max (max Na No) (ous.length + 1) :=
        le_trans (le_max_left _ _) (le_max_left _ _)
      have hNo : No ≤ max (max Na No) (ous.length + 1) :=
        le_trans (le_max_right _ _) (le_max_left _ _)
      have hNr : ous.length + 1 ≤ max (max Na No) (ous.length + 1) := le_max_right _ _
      match fuel, hfuel with
      | f + 1, hfuel =>
        have hf : max (max Na No) (ous.length + 1) ≤ f := by omega
        rw [printEntireOrgLoop]
        simp only [OUNode.id_mk, bind_app, wrapErr_app, listChildren, liftApi_ok, hca, hco]
        rw [hrA f (le_trans hNa hf)
          { out := s.out, visited := s.visited,
            calls := s.calls ++ [CallEv.listChildren i ChildType.account] ++
              [CallEv.listChildren i ChildType.organizationalUnit] }
          (fun a ha => hfresh a.id (by
            rw [preIds_eq]
            simp only [OUNode.accounts_mk, OUNode.ous_mk]
            exact List.mem_append_left _ (List.mem_map_of_mem _ ha)))]
        dsimp only
        rw [show indentOf d ++ indent = indentOf (d + 1) from rfl]
        rw [hrO f (le_trans hNo hf)
          { out := s.out ++ (accs.map (fun a =>
              VEntry.acct d a.name a.id (mgmtFlag org a.id) (a.policies ++ inh))).map
                renderEntry,
            visited := s.visited ++ accs.map AccountNode.id,
            calls := s.calls ++ [CallEv.listChildren i ChildType.account] ++
              [CallEv.listChildren i ChildType.organizationalUnit] ++ csA }
          (fun x hx => by
            have hxn : x ∉ s.visited := hfresh x (by
              rw [preIds_eq]
              simp only [OUNode.accounts_mk, OUNode.ous_mk]
              exact List.mem_append_right _ hx)
            have hxa : x ∉ accs.map AccountNode.id := fun hc => hdisj hc hx
            simp [hxn, hxa])]
        dsimp only
        rw [List.nil_append]
        rw [hrR f (by omega)
          { out := s.out ++ (accs.map (fun a =>
              VEntry.acct d a.name a.id (mgmtFlag org a.id) (a.policies ++ inh))).map
                renderEntry ++ (walkEntriesF (mgmtFlag org) ous d inh).map renderEntry,
            visited := s.visited ++ accs.map AccountNode.id ++ preIdsF ous,
            calls := s.calls ++ [CallEv.listChildren i ChildType.account] ++
              [CallEv.listChildren i ChildType.organizationalUnit] ++ csA ++ csO }
          (fun v hv a ha => by
            have : a.id ∈ preIdsF ous :=
              mem_preIdsF_of_mem_preIds hv (acc_id_mem_preIds ha)
            simp [this])
          (fun v hv w hw => by
            have : w.id ∈ preIdsF ous :=
              mem_preIdsF_of_mem_preIds hv (ou_id_mem_preIds hw)
            simp [this])]
        rw [walkEntries_eq]
        simp only [OUNode.accounts_mk, OUNode.ous_mk, preIds_eq, List.map_append]
        simp [List.append_assoc]

/-! ## Keyed lookup into the tree-derived collaborator -/

/-- In a list whose keys are distinct, `find?` by an element's key finds
that element. -/
theorem findByKey_self {α : Type} (key : α → String) :
    ∀ (l : List α) {x : α}, x ∈ l → (l.map key).Nodup →
      l.find? (fun y => key y == key x) = some x := by
  intro l
  induction l with
  | nil => intro x hx; cases hx
  | cons y ys ih =>
    intro x hx hnd
    rcases List.mem_cons.mp hx with h | h
    · subst h
      rw [List.find?]
      simp
    · have hb : (key y == key x) = false := by
        simp only [beq_eq_false_iff_ne, ne_eq]
        intro he
        exact (List.nodup_cons.mp hnd).1 (he ▸ List.mem_map_of_mem key h)
      rw [List.find?]
      simp only [hb]
      exact ih h (List.nodup_cons.mp hnd).2

/-- In a list of pairs with distinct keys, two members with the same key
are the same pair. -/
theorem pairUnique {β : Type} :
    ∀ (l : List (String × β)) {x y : String × β}, x ∈ l → y ∈ l →
      (l.map Prod.fst).Nodup → x.1 = y.1 → x = y := by
  intro l
  induction l with
  | nil => intro x y hx; cases hx
  | cons z zs ih =>
    intro x y hx hy hnd hk
    obtain ⟨hz, hzs⟩ := List.nodup_cons.mp hnd
    rcases List.mem_cons.mp hx with h1 | h1 <;> rcases List.mem_cons.mp hy with h2 | h2
    · rw [h1, h2]
    · exact absurd (hk ▸ List.mem_map_of_mem Prod.fst h2) (h1 ▸ hz)
    · exact absurd ((hk ▸ List.mem_map_of_mem Prod.fst h1 : y.1 ∈ _)) (h2 ▸ hz)
    · exact ih h1 h2 hzs hk

/-! ## A small subperm toolkit (for transferring `Nodup` facts) -/

theorem subperm_nodup {l₁ l₂ : List String} (h : List.Subperm l₁ l₂) (hn : l₂.Nodup) :
    l₁.Nodup := by
  obtain ⟨l, hperm, hsub⟩ := h
  exact hperm.nodup (hsub.nodup hn)

theorem subperm_append {a b c d : List String} (h₁ : List.Subperm a c) (h₂ : List.Subperm b d) :
    List.Subperm (a ++ b) (c ++ d) := by
  obtain ⟨x, hx1, hx2⟩ := h₁
  obtain ⟨y, hy1, hy2⟩ := h₂
  exact ⟨x ++ y, hx1.append hy1, hx2.append hy2⟩

theorem subperm_cons_cons {x : String} {a b : List String} (h : List.Subperm a b) :
    List.Subperm (x :: a) (x :: b) := by
  obtain ⟨l, h1, h2⟩ := h
  exact ⟨x :: l, h1.cons x, h2.cons₂ x⟩

theorem subperm_weaken_left {a b c : List String} (h : List.Subperm a c) :
    List.Subperm a (b ++ c) := by
  obtain ⟨l, h1, h2⟩ := h
  exact ⟨l, h1, h2.trans (List.sublist_append_right b c)⟩

theorem subperm_weaken_cons {x : String} {a b : List String} (h : List.Subperm a b) :
    List.Subperm a (x :: b) := by
  obtain ⟨l, h1, h2⟩ := h
  exact ⟨l, h1, h2.trans (List.sublist_cons_self x b)⟩

mutual

/-- The OU ids of a subtree sit inside the subtree's id list. -/
theorem allOUs_ids_subperm (u : OUNode) :
    List.Subperm ((OUNode.allOUs u).map OUNode.id) (u.id :: OUNode.preIds u) := by
  rw [allOUs_eq, preIds_eq, List.map_cons]
  exact subperm_cons_cons (subperm_weaken_left (allOUsF_ids_subperm u.ous))
termination_by sizeOf u
decreasing_by cases u; simp

/-- Forest version of `allOUs_ids_subperm`. -/
theorem allOUsF_ids_subperm (vs : List OUNode) :
    List.Subperm ((allOUsF vs).map OUNode.id) (preIdsF vs) := by
  match vs with
  | [] => simp [allOUsF, preIdsF]
  | v :: rest =>
    rw [allOUsF, preIdsF, List.map_append]
    exact subperm_append (allOUs_ids_subperm v) (allOUsF_ids_subperm rest)
termination_by sizeOf vs

end

mutual

/-- The account ids of a subtree sit inside the subtree's id list. -/
theorem allAccounts_ids_subperm (u : OUNode) :
    List.Subperm ((OUNode.allAccounts u).map AccountNode.id) (OUNode.preIds u) := by
  rw [allAccounts_eq, preIds_eq, List.map_append]
  exact subperm_append (List.Subperm.refl _) (allAccountsF_ids_subperm u.ous)
termination_by sizeOf u
decreasing_by cases u; simp

/-- Forest version of `allAccounts_ids_subperm`. -/
theorem allAccountsF_ids_subperm (vs : List OUNode) :
    List.Subperm ((allAccountsF vs).map AccountNode.id) (preIdsF vs) := by
  match vs with
  | [] => simp [allAccountsF, preIdsF]
  | v :: rest =>
    rw [allAccountsF, preIdsF, List.map_append]
    exact subperm_append (subperm_weaken_cons (allAccounts_ids_subperm v))
      (allAccountsF_ids_subperm rest)
termination_by sizeOf vs

end

mutual

/-- The policy-table keys of a subtree sit inside the subtree's id list. -/
theorem polPairs_keys_subperm (u : OUNode) :
    List.Subperm ((OUNode.polPairs u).map Prod.fst) (u.id :: OUNode.preIds u) := by
  rw [polPairs_eq, preIds_eq]
  simp only [List.map_cons, List.map_append, List.map_map]
  refine subperm_cons_cons (subperm_append ?_ (polPairsF_keys_subperm u.ous))
  simp only [Function.comp_def]
  exact List.Subperm.refl _
termination_by sizeOf u
decreasing_by cases u; simp

/-- Forest version of `polPairs_keys_subperm`. -/
theorem polPairsF_keys_subperm (vs : List OUNode) :
    List.Subperm ((polPairsF vs).map Prod.fst) (preIdsF vs) := by
  match vs with
  | [] => simp [polPairsF, preIdsF]
  | v :: rest =>
    rw [polPairsF, preIdsF, List.map_append]
    exact subperm_append (polPairs_keys_subperm v) (polPairsF_keys_subperm rest)
termination_by sizeOf vs

end

mutual

/-- The parent-table keys of a subtree sit inside the subtree's strict
descendant ids. -/
theorem parentPairs_keys_subperm (u : OUNode) :
    List.Subperm ((OUNode.parentPairs u).map Prod.fst) (OUNode.preIds u) := by
  rw [parentPairs_eq, preIds_eq]
  simp only [List.map_append, List.map_map, Function.comp_def]
  rw [List.append_assoc]
  refine subperm_append (List.Subperm.refl _) ?_
  exact parentPairsF_keys_cons_subperm u.ous
termination_by sizeOf u
decreasing_by cases u; simp

/-- Forest version: sibling ids together with the parent-table keys of
their subtrees sit inside the forest's id list. -/
theorem parentPairsF_keys_cons_subperm (vs : List OUNode) :
    List.Subperm (vs.map OUNode.id ++ (parentPairsF vs).map Prod.fst) (preIdsF vs) := by
  match vs with
  | [] => simp [parentPairsF, preIdsF]
  | v :: rest =>
    rw [parentPairsF, preIdsF]
    simp only [List.map_cons, List.map_append, List.cons_append]
    have hp : List.Perm
        (rest.map OUNode.id ++ ((OUNode.parentPairs v).map Prod.fst ++
          (parentPairsF rest).map Prod.fst))
        ((OUNode.parentPairs v).map Prod.fst ++ (rest.map OUNode.id ++
          (parentPairsF rest).map Prod.fst)) := by
      have h1 := (@List.perm_append_comm String (rest.map OUNode.id)
        ((OUNode.parentPairs v).map Prod.fst)).append_right
        ((parentPairsF rest).map Prod.fst)
      rw [List.append_assoc, List.append_assoc] at h1
      exact h1
    refine List.Subperm.trans (List.Perm.subperm (hp.cons v.id)) ?_
    exact subperm_cons_cons (subperm_append (parentPairs_keys_subperm v)
      (parentPairsF_keys_cons_subperm rest))
termination_by sizeOf vs

end

/-! ## Tree membership lemmas -/

/-- Size-based induction for `OUNode`: prove a property of a node from
the property at all of its child OUs. -/
theorem OUNode.rec_size {P : OUNode → Prop}
    (h : ∀ u, (∀ v ∈ u.ous, P v) → P u) : ∀ u, P u := by
  have haux : ∀ (n : Nat) (u : OUNode), sizeOf u ≤ n → P u := by
    intro n
    induction n with
    | zero => intro u hu; exact absurd hu (by cases u; simp)
    | succ n ih =>
      intro u hu
      refine h u (fun v hv => ih v ?_)
      have h1 : sizeOf v < sizeOf u.ous := List.sizeOf_lt_of_mem hv
      have h2 : sizeOf u.ous < sizeOf u := by cases u; simp
      omega
  exact fun u => haux (sizeOf u) u le_rfl

theorem mem_allOUsF {x : OUNode} :
    ∀ {vs : List OUNode}, x ∈ allOUsF vs ↔ ∃ v ∈ vs, x ∈ OUNode.allOUs v := by
  intro vs
  induction vs with
  | nil => simp [allOUsF]
  | cons v rest ih =>
    rw [allOUsF]
    simp [List.mem_append, ih]

theorem mem_polPairsF_of {pr : String × List String} {v : OUNode} :
    ∀ {vs : List OUNode}, v ∈ vs → pr ∈ OUNode.polPairs v → pr ∈ polPairsF vs := by
  intro vs hv hx
  induction vs with
  | nil => cases hv
  | cons w ws ih =>
    rw [polPairsF]
    rcases List.mem_cons.mp hv with h | h
    · subst h; exact List.mem_append_left _ hx
    · exact List.mem_append_right _ (ih h)

theorem mem_parentPairsF_of {pr : String × String} {v : OUNode} :
    ∀ {vs : List OUNode}, v ∈ vs → pr ∈ OUNode.parentPairs v → pr ∈ parentPairsF vs := by
  intro vs hv hx
  induction vs with
  | nil => cases hv
  | cons w ws ih =>
    rw [parentPairsF]
    rcases List.mem_cons.mp hv with h | h
    · subst h; exact List.mem_append_left _ hx
    · exact List.mem_append_right _ (ih h)

theorem mem_allAccountsF_of {a : AccountNode} {v : OUNode} :
    ∀ {vs : List OUNode}, v ∈ vs → a ∈ OUNode.allAccounts v → a ∈ allAccountsF vs := by
  intro vs hv hx
  induction vs with
  | nil => cases hv
  | cons w ws ih =>
    rw [allAccountsF]
    rcases List.mem_cons.mp hv with h | h
    · subst h; exact List.mem_append_left _ hx
    · exact List.mem_append_right _ (ih h)

theorem self_mem_allOUs (u : OUNode) : u ∈ OUNode.allOUs u := by
  rw [allOUs_eq]; exact List.mem_cons_self _ _

/-- The policy table contains every OU's row. -/
theorem polPairs_mem_ou :
    ∀ (u : OUNode), ∀ u' ∈ OUNode.allOUs u, (u'.id, u'.policies) ∈ OUNode.polPairs u := by
  refine OUNode.rec_size ?_
  intro u ih u' hu'
  rw [allOUs_eq] at hu'
  rw [polPairs_eq]
  rcases List.mem_cons.mp hu' with h | h
  · subst h; exact List.mem_cons_self _ _
  · obtain ⟨v, hv, hmem⟩ := mem_allOUsF.mp h
    exact List.mem_cons_of_mem _
      (List.mem_append_right _ (mem_polPairsF_of hv (ih v hv u' hmem)))

/-- The policy table contains every account's row. -/
theorem polPairs_mem_acc :
    ∀ (u : OUNode), ∀ u' ∈ OUNode.allOUs u, ∀ a ∈ u'.accounts,
      (a.id, a.policies) ∈ OUNode.polPairs u := by
  refine OUNode.rec_size ?_
  intro u ih u' hu' a ha
  rw [allOUs_eq] at hu'
  rw [polPairs_eq]
  rcases List.mem_cons.mp hu' with h | h
  · subst h
    exact List.mem_cons_of_mem _
      (List.mem_append_left _ (List.mem_map_of_mem _ ha))
  · obtain ⟨v, hv, hmem⟩ := mem_allOUsF.mp h
    exact List.mem_cons_of_mem _
      (List.mem_append_right _ (mem_polPairsF_of hv (ih v hv u' hmem a ha)))

/-- Every account of a subtree OU is in the subtree's account list. -/
theorem allAccounts_mem :
    ∀ (u : OUNode), ∀ u' ∈ OUNode.allOUs u, ∀ a ∈ u'.accounts,
      a ∈ OUNode.allAccounts u := by
  refine OUNode.rec_size ?_
  intro u ih u' hu' a ha
  rw [allOUs_eq] at hu'
  rw [allAccounts_eq]
  rcases List.mem_cons.mp hu' with h | h
  · subst h; exact List.mem_append_left _ ha
  · obtain ⟨v, hv, hmem⟩ := mem_allOUsF.mp h
    exact List.mem_append_right _ (mem_allAccountsF_of hv (ih v hv u' hmem a ha))

/-- The parent table contains every account's edge. -/
theorem parentPairs_mem_acc :
    ∀ (u : OUNode), ∀ u' ∈ OUNode.allOUs u, ∀ a ∈ u'.accounts,
      (a.id, u'.id) ∈ OUNode.parentPairs u := by
  refine OUNode.rec_size ?_
  intro u ih u' hu' a ha
  rw [allOUs_eq] at hu'
  rw [parentPairs_eq]
  rcases List.mem_cons.mp hu' with h | h
  · subst h
    exact List.mem_append_left _ (List.mem_append_left _ (List.mem_map_of_mem _ ha))
  · obtain ⟨v, hv, hmem⟩ := mem_allOUsF.mp h
    exact List.mem_append_right _ (mem_parentPairsF_of hv (ih v hv u' hmem a ha))

/-- The parent table contains every child OU's edge. -/
theorem parentPairs_mem_ou :
    ∀ (u : OUNode), ∀ u' ∈ OUNode.allOUs u, ∀ v ∈ u'.ous,
      (v.id, u'.id) ∈ OUNode.parentPairs u := by
  refine OUNode.rec_size ?_
  intro u ih u' hu' v hv
  rw [allOUs_eq] at hu'
  rw [parentPairs_eq]
  rcases List.mem_cons.mp hu' with h | h
  · subst h
    exact List.mem_append_left _ (List.mem_append_right _ (List.mem_map_of_mem _ hv))
  · obtain ⟨w, hw, hmem⟩ := mem_allOUsF.mp h
    exact List.mem_append_right _ (mem_parentPairsF_of hw (ih w hw u' hmem v hv))

/-- The OU list is closed under taking child OUs. -/
theorem allOUs_closed :
    ∀ (u : OUNode), ∀ u' ∈ OUNode.allOUs u, ∀ v ∈ u'.ous, v ∈ OUNode.allOUs u := by
  refine OUNode.rec_size ?_
  intro u ih u' hu' v hv
  rw [allOUs_eq] at hu'
  rw [allOUs_eq]
  rcases List.mem_cons.mp hu' with h | h
  · subst h
    exact List.mem_cons_of_mem _ (mem_allOUsF.mpr ⟨v, hv, self_mem_allOUs v⟩)
  · obtain ⟨w, hw, hmem⟩ := mem_allOUsF.mp h
    exact List.mem_cons_of_mem _ (mem_allOUsF.mpr ⟨w, hw, ih w hw u' hmem v hv⟩)

/-- Ids of a subtree are ids of the whole tree. -/
theorem subtree_ids_sub :
    ∀ (u : OUNode), ∀ u' ∈ OUNode.allOUs u, ∀ x ∈ u'.id :: OUNode.preIds u',
      x ∈ u.id :: OUNode.preIds u := by
  refine OUNode.rec_size ?_
  intro u ih u' hu' x hx
  rw [allOUs_eq] at hu'
  rcases List.mem_cons.mp hu' with h | h
  · subst h; exact hx
  · obtain ⟨v, hv, hmem⟩ := mem_allOUsF.mp h
    have hxv : x ∈ v.id :: OUNode.preIds v := ih v hv u' hmem x hx
    refine List.mem_cons_of_mem _ ?_
    rcases List.mem_cons.mp hxv with h' | h'
    · exact h' ▸ ou_id_mem_preIds hv
    · exact mem_preIds_of_child hv h'

/-! ## Lookup lemmas for the tree-derived collaborator -/

theorem findPair_self {β : Type} (l : List (String × β)) {k : String} {b : β}
    (hm : (k, b) ∈ l) (hnd : (l.map Prod.fst).Nodup) :
    l.find? (fun pr => pr.1 == k) = some (k, b) := by
  have h := findByKey_self Prod.fst l hm hnd
  simpa using h

theorem ofTree_children_acc {t : OrgTree} (hwf : WF t) {u : OUNode}
    (hu : u ∈ OUNode.allOUs t.root) :
    (Org.ofTree t).listChildrenApi u.id ChildType.account =
      Except.ok (u.accounts.map AccountNode.id) := by
  have hnd : ((OUNode.allOUs t.root).map OUNode.id).Nodup :=
    subperm_nodup (allOUs_ids_subperm t.root) hwf.nodupIds
  simp only [Org.ofTree]
  rw [findByKey_self OUNode.id _ hu hnd]

theorem ofTree_children_ou {t : OrgTree} (hwf : WF t) {u : OUNode}
    (hu : u ∈ OUNode.allOUs t.root) :
    (Org.ofTree t).listChildrenApi u.id ChildType.organizationalUnit =
      Except.ok (u.ous.map OUNode.id) := by
  have hnd : ((OUNode.allOUs t.root).map OUNode.id).Nodup :=
    subperm_nodup (allOUs_ids_subperm t.root) hwf.nodupIds
  simp only [Org.ofTree]
  rw [findByKey_self OUNode.id _ hu hnd]

theorem ofTree_ouName {t : OrgTree} (hwf : WF t) {u : OUNode}
    (hu : u ∈ OUNode.allOUs t.root) :
    (Org.ofTree t).describeOUApi u.id = Except.ok u.name := by
  have hnd : ((OUNode.allOUs t.root).map OUNode.id).Nodup :=
    subperm_nodup (allOUs_ids_subperm t.root) hwf.nodupIds
  simp only [Org.ofTree]
  rw [findByKey_self OUNode.id _ hu hnd]

theorem ofTree_accName {t : OrgTree} (hwf : WF t) {a : AccountNode}
    (ha : a ∈ OUNode.allAccounts t.root) :
    (Org.ofTree t).describeAccountApi a.id = Except.ok a.name := by
  have hnd : ((OUNode.allAccounts t.root).map AccountNode.id).Nodup :=
    subperm_nodup (subperm_weaken_cons (allAccounts_ids_subperm t.root))
      (by exact hwf.nodupIds)
  simp only [Org.ofTree]
  rw [findByKey_self AccountNode.id _ ha hnd]

theorem ofTree_policies {t : OrgTree} (hwf : WF t) {x : String} {pols : List String}
    (hm : (x, pols) ∈ OUNode.polPairs t.root) :
    (Org.ofTree t).listPoliciesApi x = Except.ok pols := by
  have hnd : ((OUNode.polPairs t.root).map Prod.fst).Nodup :=
    subperm_nodup (polPairs_keys_subperm t.root) hwf.nodupIds
  simp only [Org.ofTree]
  rw [findPair_self _ hm hnd]

theorem ofTree_parents {t : OrgTree} (hwf : WF t) {cid pid : String}
    (hm : (cid, pid) ∈ OUNode.parentPairs t.root) :
    (Org.ofTree t).listParentsApi cid = Except.ok [pid] := by
  have hnd : ((OUNode.parentPairs t.root).map Prod.fst).Nodup :=
    subperm_nodup (subperm_weaken_cons (parentPairs_keys_subperm t.root))
      hwf.nodupIds
  simp only [Org.ofTree]
  rw [findPair_self _ hm hnd]

/-! ## Upward policy chains -/

/-- An upward chain of `(id, direct policies)` rows the collaborator
agrees with: each non-root element's single parent is the next element,
and the last element is the root (`r-` prefixed, where the upward
recursion of `listAllSCPsForChild` stops). -/
inductive Chained (org : Org) : List (String × List String) → Prop where
  | root {id : String} {pols : List String} :
      goStartsWith id "r-" = true →
      org.listPoliciesApi id = Except.ok pols →
      Chained org [(id, pols)]
  | cons {id : String} {pols : List String} {nid : String} {npols : List String}
      {rest : List (String × List String)} :
      goStartsWith id "r-" = false →
      org.listPoliciesApi id = Except.ok pols →
      org.listParentsApi id = Except.ok [nid] →
      Chained org ((nid, npols) :: rest) →
      Chained org ((id, pols) :: (nid, npols) :: rest)

/-- The head id of a chain. -/
def chainHeadId : List (String × List String) → String
  | [] => ""
  | (x, _) :: _ => x

/-- All policies of a chain concatenated, nearest-first. -/
def chainPols (c : List (String × List String)) : List String :=
  (c.map Prod.snd).flatten

/-- `listAllSCPsForChild` along an agreed upward chain returns exactly
the chain's policies concatenated nearest-first, and never queries
`DescribeOrganization`. -/
theorem scpChain (org : Org) :
    ∀ {chain : List (String × List String)}, Chained org chain →
      ∃ cs, List.count CallEv.descOrg cs = 0 ∧
        ∀ fuel, chain.length ≤ fuel → ∀ s : S,
          listAllSCPsForChild org fuel (chainHeadId chain) s =
            (Except.ok (chainPols chain), { s with calls := s.calls ++ cs }) := by
  intro chain hch
  induction hch with
  | root h1 h2 =>
    rename_i id pols
    refine ⟨[CallEv.listPolicies id], by simp, fun fuel hfuel s => ?_⟩
    match fuel, hfuel with
    | f + 1, _ =>
      rw [listAllSCPsForChild]
      simp [bind_app, listSCPsForTarget, h2, h1, chainHeadId, chainPols]
  | cons h1 h2 h3 hch ih =>
    rename_i id pols nid npols rest
    obtain ⟨csI, hcI, hrI⟩ := ih
    refine ⟨[CallEv.listPolicies id, CallEv.listParents id] ++ csI,
      by simp [List.count_append, List.count_cons, hcI], fun fuel hfuel s => ?_⟩
    match fuel, hfuel with
    | f + 1, hfuel =>
      rw [listAllSCPsForChild]
      simp only [chainHeadId] at hrI
      simp only [chainHeadId, bind_app, listSCPsForTarget, liftApi_ok, h2, h1,
        Bool.false_eq_true, if_false, listParentOUs, h3, scpsOfParents]
      rw [hrI f (by simpa using hfuel)]
      simp [chainPols, List.append_assoc]

/-! ## Ancestor chains in a snapshot tree -/

/-- `Anc t u anc`: `u` is a node of the tree and `anc` is its strict
ancestor list, nearest-first, ending with the root. -/
inductive Anc (t : OrgTree) : OUNode → List OUNode → Prop where
  | root : Anc t t.root []
  | step {u : OUNode} {anc : List OUNode} {v : OUNode} :
      Anc t u anc → v ∈ u.ous → Anc t v (u :: anc)

theorem Anc.mem_allOUs {t : OrgTree} :
    ∀ {u : OUNode} {anc : List OUNode}, Anc t u anc → u ∈ OUNode.allOUs t.root := by
  intro u anc h
  induction h with
  | root => exact self_mem_allOUs t.root
  | step hprev hv ih => exact allOUs_closed t.root _ ih _ hv

/-- The upward chain of an OU node of the tree is agreed by the
tree-derived collaborator. -/
theorem Anc.chained {t : OrgTree} (hwf : WF t) :
    ∀ {u : OUNode} {anc : List OUNode}, Anc t u anc →
      Chained (Org.ofTree t)
        ((u.id, u.policies) :: anc.map (fun w => (w.id, w.policies))) := by
  intro u anc h
  induction h with
  | root =>
    exact Chained.root hwf.rootShape.2
      (ofTree_policies hwf (polPairs_mem_ou t.root t.root (self_mem_allOUs t.root)))
  | step hprev hv ih =>
    rename_i w anc' v
    have hwmem : w ∈ OUNode.allOUs t.root := hprev.mem_allOUs
    have hvmem : v ∈ OUNode.allOUs t.root := allOUs_closed t.root w hwmem v hv
    exact Chained.cons (hwf.ouShapes w hwmem v hv).2.1
      (ofTree_policies hwf (polPairs_mem_ou t.root v hvmem))
      (ofTree_parents hwf (parentPairs_mem_ou t.root w hwmem v hv))
      ih

/-- SCP resolution for an account of the tree: the raw result is the
account's direct policies followed by the chain of its ancestors'
policies, nearest-first. -/
theorem ofTree_scpOK {t : OrgTree} (hwf : WF t) {u : OUNode} {anc : List OUNode}
    {a : AccountNode} (hAnc : Anc t u anc) (ha : a ∈ u.accounts) :
    ScpOK (Org.ofTree t) a.id
      (a.policies ++ (u.policies ++ (anc.map OUNode.policies).flatten)) := by
  have humem : u ∈ OUNode.allOUs t.root := hAnc.mem_allOUs
  have hch : Chained (Org.ofTree t)
      ((a.id, a.policies) :: (u.id, u.policies) ::
        anc.map (fun w => (w.id, w.policies))) :=
    Chained.cons (hwf.accShapes u humem a ha).2.1
      (ofTree_policies hwf (polPairs_mem_acc t.root u humem a ha))
      (ofTree_parents hwf (parentPairs_mem_acc t.root u humem a ha))
      (hAnc.chained hwf)
  obtain ⟨cs, hc, hr⟩ := scpChain (Org.ofTree t) hch
  refine ⟨anc.length + 2, cs, hc, fun fuel hfuel s => ?_⟩
  have := hr fuel (by simpa using hfuel) s
  simpa [chainHeadId, chainPols, Function.comp_def] using this

/-- The tree-derived collaborator agrees with every node of its tree. -/
theorem ofTree_walkAgrees {t : OrgTree} (hwf : WF t) :
    ∀ (u : OUNode), ∀ (anc : List OUNode), Anc t u anc →
      WalkAgrees (Org.ofTree t) u
        (u.policies ++ (anc.map OUNode.policies).flatten) := by
  refine OUNode.rec_size ?_
  intro u ih anc hAnc
  have humem : u ∈ OUNode.allOUs t.root := hAnc.mem_allOUs
  match u, hAnc, humem, ih with
  | OUNode.mk i nm p accs ous, hAnc, humem, ih =>
    refine WalkAgrees.intro i nm p accs ous _ ?_ ?_ ?_ ?_ ?_
    · simpa using ofTree_children_acc hwf humem
    · simpa using ofTree_children_ou hwf humem
    · intro a ha
      refine ⟨ofTree_accName hwf (allAccounts_mem t.root _ humem a (by simpa using ha)),
        hwf.accShapes _ humem a (by simpa using ha), ?_⟩
      have h := ofTree_scpOK hwf hAnc (by simpa using ha)
      simpa using h
    · intro v hv
      exact ⟨ofTree_ouName hwf (allOUs_closed t.root _ humem v (by simpa using hv)),
        hwf.ouShapes _ humem v (by simpa using hv)⟩
    · intro v hv
      have h := ih v (by simpa using hv) (OUNode.mk i nm p accs ous :: anc)
        (Anc.step hAnc (by simpa using hv))
      simpa [List.append_assoc] using h

/-! ## C1: inheritance correctness of SCP resolution -/

/-- C1: for every account of a (well-formed) organization tree, the
resolver `listAllSCPsForChild` returns exactly the account's directly
attached policies followed by the policies directly attached to each
ancestor up to and including the Root, nearest-ancestor-first; the
displayed set `dedupFirst` of that list equals the spec's keep-first
dedup (`specDedup`, modelled from the spec's words) and carries no
duplicate names.  `u :: anc` is the account's ancestor chain,
nearest-first, ending at the Root. -/
theorem resolve_eq_dedup_chain (t : OrgTree) (hwf : WF t) (u : OUNode)
    (anc : List OUNode) (a : AccountNode) (hAnc : Anc t u anc) (ha : a ∈ u.accounts) :
    (∃ N cs, ∀ fuel, N ≤ fuel → ∀ s : S,
      listAllSCPsForChild (Org.ofTree t) fuel a.id s =
        (Except.ok (a.policies ++ ((u :: anc).map OUNode.policies).flatten),
         { s with calls := s.calls ++ cs })) ∧
    dedupFirst (a.policies ++ ((u :: anc).map OUNode.policies).flatten) =
      specDedup (a.policies ++ ((u :: anc).map OUNode.policies).flatten) ∧
    (dedupFirst (a.policies ++ ((u :: anc).map OUNode.policies).flatten)).Nodup := by
  obtain ⟨N, cs, _, hr⟩ := ofTree_scpOK hwf hAnc ha
  refine ⟨⟨N, cs, fun fuel hf s => ?_⟩, dedupFirst_eq_specDedup _, dedupFirst_nodup _⟩
  have h := hr fuel hf s
  simpa [List.append_assoc] using h

/-! A concrete well-formed snapshot used by the witnesses below. -/

def acct1 : AccountNode := ⟨"111122223333", "payer", ["FullAWSAccess"]⟩

def acct2 : AccountNode := ⟨"444455556666", "dev", ["FullAWSAccess", "DenyS3"]⟩

def ouFin : OUNode := OUNode.mk "ou-w1-fin" "Finance" ["DenyIAM"] [acct2] []

def rootW : OUNode := OUNode.mk "r-w1" "Root" ["FullAWSAccess"] [acct1] [ouFin]

def treeW : OrgTree := ⟨rootW, "111122223333"⟩

theorem treeW_wf : WF treeW := by
  refine ⟨⟨by decide, by decide⟩, ?_, ?_, ?_⟩
  · intro u hu v hv
    simp only [treeW, allOUs_eq, allOUsF, rootW, ouFin, OUNode.ous_mk, List.mem_cons,
      List.mem_append, List.mem_singleton, List.not_mem_nil, or_false] at hu
    rcases hu with h | h <;> subst h <;>
      simp only [OUNode.ous_mk, List.mem_singleton, List.not_mem_nil] at hv
    · subst hv
      exact ⟨by decide, by decide, by decide⟩
  · intro u hu a ha
    simp only [treeW, allOUs_eq, allOUsF, rootW, ouFin, OUNode.ous_mk, List.mem_cons,
      List.mem_append, List.mem_singleton, List.not_mem_nil, or_false] at hu
    rcases hu with h | h <;> subst h <;>
      simp only [OUNode.accounts_mk, List.mem_singleton, List.not_mem_nil] at ha <;>
      subst ha
    · exact ⟨by decide, by decide, by decide⟩
    · exact ⟨by decide, by decide, by decide⟩
  · simp only [treeW, rootW, ouFin, acct1, acct2, preIds_eq, preIdsF, OUNode.id_mk,
      OUNode.accounts_mk, OUNode.ous_mk, List.map_cons, List.map_nil]
    decide

/-- C1 witness: the chain theorem applied to the account `dev` under the
`Finance` OU of the concrete snapshot. -/
theorem resolve_eq_dedup_chain_witness :
    (∃ N cs, ∀ fuel, N ≤ fuel → ∀ s : S,
      listAllSCPsForChild (Org.ofTree treeW) fuel acct2.id s =
        (Except.ok (acct2.policies ++ (([ouFin, rootW]).map OUNode.policies).flatten),
         { s with calls := s.calls ++ cs })) ∧
    dedupFirst (acct2.policies ++ (([ouFin, rootW]).map OUNode.policies).flatten) =
      specDedup (acct2.policies ++ (([ouFin, rootW]).map OUNode.policies).flatten) ∧
    (dedupFirst (acct2.policies ++ (([ouFin, rootW]).map OUNode.policies).flatten)).Nodup :=
  resolve_eq_dedup_chain treeW treeW_wf ouFin [rootW] acct2
    (Anc.step Anc.root (List.mem_cons_self _ _)) (List.mem_cons_self _ _)

/-! ## C2: full-tree coverage -/

/-- C2: over any well-formed organization tree, the full-tree walk
(`printEntireOrg` started at the root with the code's single-level
indent) succeeds and emits exactly the canonical entry sequence
`walkEntries`, in which at every parent all direct child accounts come
before any child OU and each child OU is followed by its own recursively
walked subtree; the final visited set is exactly `preIds`, the subtree's
node ids in emission order — whose entries are pairwise distinct and
number exactly the accounts plus the strict-descendant OUs, so every
Account and OU is visited exactly once and no node's line is emitted
twice. -/
theorem printEntireOrg_coverage (t : OrgTree) (hwf : WF t) :
    (∃ N cs, ∀ fuel, N ≤ fuel → ∀ s : S, s.visited = [] →
      printEntireOrg (Org.ofTree t) fuel t.root.id indent s =
        (Except.ok (),
         { out := s.out ++ (walkEntries (mgmtFlag (Org.ofTree t)) t.root 1
             t.root.policies).map renderEntry,
           visited := OUNode.preIds t.root,
           calls := s.calls ++ cs })) ∧
    (walkEntries (mgmtFlag (Org.ofTree t)) t.root 1 t.root.policies).map VEntry.entryId =
      OUNode.preIds t.root ∧
    (OUNode.preIds t.root).Nodup ∧
    (OUNode.preIds t.root).length =
      (OUNode.allAccounts t.root).length + (allOUsF t.root.ous).length := by
  have hWA : WalkAgrees (Org.ofTree t) t.root t.root.policies := by
    simpa using ofTree_walkAgrees hwf t.root [] Anc.root
  have hnd : (OUNode.preIds t.root).Nodup := hwf.nodupIds.of_cons
  obtain ⟨N, cs, _, hr⟩ :=
    printEntireOrgLoop_run (Org.ofTree t) (sizeOf t.root) t.root le_rfl
      t.root.policies 1 hWA hnd
  refine ⟨⟨N, cs, fun fuel hf s hvis => ?_⟩,
    walkEntries_map_id _ _ _ _, hnd, preIds_length t.root⟩
  rw [printEntireOrg, show (indent : String) = indentOf 1 from rfl]
  rw [hr fuel hf s (by simp [hvis])]
  rw [hvis]
  simp

/-- C2 witness: coverage applied to the concrete snapshot. -/
theorem printEntireOrg_coverage_witness :
    (∃ N cs, ∀ fuel, N ≤ fuel → ∀ s : S, s.visited = [] →
      printEntireOrg (Org.ofTree treeW) fuel treeW.root.id indent s =
        (Except.ok (),
         { out := s.out ++ (walkEntries (mgmtFlag (Org.ofTree treeW)) treeW.root 1
             treeW.root.policies).map renderEntry,
           visited := OUNode.preIds treeW.root,
           calls := s.calls ++ cs })) ∧
    (walkEntries (mgmtFlag (Org.ofTree treeW)) treeW.root 1
      treeW.root.policies).map VEntry.entryId = OUNode.preIds treeW.root ∧
    (OUNode.preIds treeW.root).Nodup ∧
    (OUNode.preIds treeW.root).length =
      (OUNode.allAccounts treeW.root).length + (allOUsF treeW.root.ous).length :=
  printEntireOrg_coverage treeW treeW_wf

/-! ## C9 (amended): describeOrganization call count of the walk -/

/-- C9 (amended): the organization's master-account id is not cached —
`isManagementAccount` queries `DescribeOrganization` afresh for every
account it renders, so over a full-tree walk the number of
`DescribeOrganization` calls equals the number of accounts in the tree
(grows linearly with account count), rather than being one per
invocation. -/
theorem describeOrganization_calls_per_account (t : OrgTree) (hwf : WF t) :
    ∃ N cs, List.count CallEv.descOrg cs = (OUNode.allAccounts t.root).length ∧
      ∀ fuel, N ≤ fuel → ∀ s : S, s.visited = [] →
        printEntireOrg (Org.ofTree t) fuel t.root.id indent s =
          (Except.ok (),
           { out := s.out ++ (walkEntries (mgmtFlag (Org.ofTree t)) t.root 1
               t.root.policies).map renderEntry,
             visited := OUNode.preIds t.root,
             calls := s.calls ++ cs }) := by
  have hWA : WalkAgrees (Org.ofTree t) t.root t.root.policies := by
    simpa using ofTree_walkAgrees hwf t.root [] Anc.root
  have hnd : (OUNode.preIds t.root).Nodup := hwf.nodupIds.of_cons
  obtain ⟨N, cs, hc, hr⟩ :=
    printEntireOrgLoop_run (Org.ofTree t) (sizeOf t.root) t.root le_rfl
      t.root.policies 1 hWA hnd
  refine ⟨N, cs, hc, fun fuel hf s hvis => ?_⟩
  rw [printEntireOrg, show (indent : String) = indentOf 1 from rfl]
  rw [hr fuel hf s (by simp [hvis])]
  rw [hvis]
  simp

/-- C9 witness: the call-count theorem applied to the concrete snapshot. -/
theorem describeOrganization_calls_per_account_witness :
    ∃ N cs, List.count CallEv.descOrg cs = (OUNode.allAccounts treeW.root).length ∧
      ∀ fuel, N ≤ fuel → ∀ s : S, s.visited = [] →
        printEntireOrg (Org.ofTree treeW) fuel treeW.root.id indent s =
          (Except.ok (),
           { out := s.out ++ (walkEntries (mgmtFlag (Org.ofTree treeW)) treeW.root 1
               treeW.root.policies).map renderEntry,
             visited := OUNode.preIds treeW.root,
             calls := s.calls ++ cs }) :=
  describeOrganization_calls_per_account treeW treeW_wf

/-! ## C7: rendered line format -/

theorem specDedup_sublist : ∀ (l : List String), List.Sublist (specDedup l) l
  | [] => by simp
  | x :: xs => by
    rw [specDedup_cons]
    exact List.Sublist.cons₂ x
      ((specDedup_sublist _).trans (List.filter_sublist xs))
termination_by l => l.length
decreasing_by exact Nat.lt_succ_of_le (List.length_filter_le _ _)

theorem dedupFirst_sublist (l : List String) : List.Sublist (dedupFirst l) l := by
  rw [dedupFirst_eq_specDedup]; exact specDedup_sublist l

theorem indentOf_data : ∀ d : Nat, (indentOf d).data = List.replicate (4 * d) ' '
  | 0 => rfl
  | d + 1 => by
    show (indentOf d ++ indent).data = _
    rw [String.data_append, indentOf_data d, Nat.mul_succ, List.replicate_add]
    rfl

/-- C7: every rendered line has the form
`<indent>|-- <Kind>: <label> [<id>]` with the indent exactly 4 spaces per
depth level; an Account's label carries the ` (Management Account)`
marker (before the bracketed id) exactly when the management flag holds
and is followed by the policy names joined with comma-and-space —
deduplicated keeping first occurrences (hence insertion-ordered, a
duplicate-free sublist of the resolved list), the empty list rendering
exactly as `(SCPs: )`. -/
theorem rendered_line_format (d : Nat) (name id : String) (raw : List String) :
    (indentOf d).data = List.replicate (4 * d) ' ' ∧
    renderEntry (VEntry.root id) = "|-- Root: [" ++ id ++ "]\n" ∧
    renderEntry (VEntry.ou d name id) =
      indentOf d ++ "|-- OU: " ++ name ++ " [" ++ id ++ "]\n" ∧
    renderEntry (VEntry.acct d name id false raw) =
      indentOf d ++ "|-- Account: " ++ name ++ " [" ++ id ++ "] (SCPs: " ++
        String.intercalate ", " (dedupFirst raw) ++ ")\n" ∧
    renderEntry (VEntry.acct d name id true raw) =
      indentOf d ++ "|-- Account: " ++ name ++ " (Management Account) [" ++ id ++
        "] (SCPs: " ++ String.intercalate ", " (dedupFirst raw) ++ ")\n" ∧
    dedupFirst raw = specDedup raw ∧
    (dedupFirst raw).Nodup ∧
    List.Sublist (dedupFirst raw) raw ∧
    renderEntry (VEntry.acct d name id false []) =
      indentOf d ++ "|-- Account: " ++ name ++ " [" ++ id ++ "] (SCPs: )\n" := by
  refine ⟨indentOf_data d, rfl, rfl, ?_, ?_, dedupFirst_eq_specDedup raw,
    dedupFirst_nodup raw, dedupFirst_sublist raw, ?_⟩
  · simp [renderEntry, accountLine, String.append_assoc]
  · simp [renderEntry, accountLine, String.append_assoc]
  · have hi : String.intercalate ", " ([] : List String) = "" := rfl
    simp [renderEntry, accountLine, dedupFirst, dedupFirstGo, hi, String.append_assoc]

/-! ## Uniqueness in a well-formed tree -/

/-- In a list with distinct keys, two members with the same key are the
same element. -/
theorem keyUnique {α : Type} (key : α → String) :
    ∀ (l : List α) {x y : α}, x ∈ l → y ∈ l → (l.map key).Nodup →
      key x = key y → x = y := by
  intro l
  induction l with
  | nil => intro x y hx; cases hx
  | cons z zs ih =>
    intro x y hx hy hnd hk
    obtain ⟨hz, hzs⟩ := List.nodup_cons.mp hnd
    rcases List.mem_cons.mp hx with h1 | h1 <;> rcases List.mem_cons.mp hy with h2 | h2
    · rw [h1, h2]
    · exact absurd (hk ▸ List.mem_map_of_mem key h2) (h1 ▸ hz)
    · exact absurd ((hk ▸ List.mem_map_of_mem key h1 : key y ∈ _)) (h2 ▸ hz)
    · exact ih h1 h2 hzs hk

/-- Inversion of `allAccountsF` membership. -/
theorem mem_allAccountsF_inv {a : AccountNode} :
    ∀ {vs : List OUNode}, a ∈ allAccountsF vs → ∃ v ∈ vs, a ∈ OUNode.allAccounts v := by
  intro vs ha
  induction vs with
  | nil => rw [allAccountsF] at ha; cases ha
  | cons v rest ih =>
    rw [allAccountsF] at ha
    rcases List.mem_append.mp ha with h | h
    · exact ⟨v, List.mem_cons_self _ _, h⟩
    · obtain ⟨w, hw, hmem⟩ := ih h
      exact ⟨w, List.mem_cons_of_mem _ hw, hmem⟩

/-- A well-formed tree's root is nobody's child OU. -/
theorem root_not_child {t : OrgTree} (hwf : WF t) :
    ∀ v ∈ OUNode.allOUs t.root, t.root ∉ v.ous := by
  intro v hv hmem
  have hroot : t.root.id ∈ OUNode.preIds t.root := by
    rw [allOUs_eq] at hv
    rcases List.mem_cons.mp hv with h | h
    · exact ou_id_mem_preIds (h ▸ hmem)
    · obtain ⟨c, hc, hvc⟩ := mem_allOUsF.mp h
      have h1 : t.root.id ∈ OUNode.preIds v := ou_id_mem_preIds hmem
      have h2 : t.root.id ∈ c.id :: OUNode.preIds c :=
        subtree_ids_sub c v hvc _ (List.mem_cons_of_mem _ h1)
      rcases List.mem_cons.mp h2 with h3 | h3
      · exact h3 ▸ ou_id_mem_preIds hc
      · exact mem_preIds_of_child hc h3
  exact (List.nodup_cons.mp hwf.nodupIds).1 hroot

/-- In a well-formed tree each node has at most one parent OU. -/
theorem parent_unique {t : OrgTree} (hwf : WF t) {u u' v : OUNode}
    (hu : u ∈ OUNode.allOUs t.root) (hu' : u' ∈ OUNode.allOUs t.root)
    (hv : v ∈ u.ous) (hv' : v ∈ u'.ous) : u = u' := by
  have hnd : ((OUNode.parentPairs t.root).map Prod.fst).Nodup :=
    subperm_nodup (subperm_weaken_cons (parentPairs_keys_subperm t.root)) hwf.nodupIds
  have h1 := parentPairs_mem_ou t.root u hu v hv
  have h2 := parentPairs_mem_ou t.root u' hu' v hv'
  have heq : (v.id, u.id) = (v.id, u'.id) := pairUnique _ h1 h2 hnd rfl
  have hnodou : ((OUNode.allOUs t.root).map OUNode.id).Nodup :=
    subperm_nodup (allOUs_ids_subperm t.root) hwf.nodupIds
  exact keyUnique OUNode.id _ hu hu' hnodou (congrArg Prod.snd heq)

/-- In a well-formed tree an account id determines both the account and
the OU it sits under. -/
theorem account_home_unique {t : OrgTree} (hwf : WF t) {u u' : OUNode}
    {a a' : AccountNode}
    (hu : u ∈ OUNode.allOUs t.root) (hu' : u' ∈ OUNode.allOUs t.root)
    (ha : a ∈ u.accounts) (ha' : a' ∈ u'.accounts) (hid : a.id = a'.id) :
    u = u' ∧ a = a' := by
  have hndp : ((OUNode.parentPairs t.root).map Prod.fst).Nodup :=
    subperm_nodup (subperm_weaken_cons (parentPairs_keys_subperm t.root)) hwf.nodupIds
  have h1 := parentPairs_mem_acc t.root u hu a ha
  have h2 := parentPairs_mem_acc t.root u' hu' a' ha'
  have heq : (a.id, u.id) = (a'.id, u'.id) := pairUnique _ h1 h2 hndp hid
  have hnodou : ((OUNode.allOUs t.root).map OUNode.id).Nodup :=
    subperm_nodup (allOUs_ids_subperm t.root) hwf.nodupIds
  have huu : u = u' := keyUnique OUNode.id _ hu hu' hnodou (congrArg Prod.snd heq)
  have hnda : ((OUNode.allAccounts t.root).map AccountNode.id).Nodup :=
    subperm_nodup (subperm_weaken_cons (allAccounts_ids_subperm t.root)) hwf.nodupIds
  have haa : a = a' :=
    keyUnique AccountNode.id _ (allAccounts_mem t.root u hu a ha)
      (allAccounts_mem t.root u' hu' a' ha') hnda hid
  exact ⟨huu, haa⟩

/-- In a well-formed tree a node's strict ancestor chain is unique. -/
theorem Anc.unique {t : OrgTree} (hwf : WF t) :
    ∀ {u : OUNode} {anc anc' : List OUNode}, Anc t u anc → Anc t u anc' →
      anc = anc' := by
  intro u anc anc' h h'
  induction h generalizing anc' with
  | root =>
    cases h' with
    | root => rfl
    | step hprev hv => exact absurd hv (root_not_child hwf _ hprev.mem_allOUs)
  | step hprev hv ih =>
    rename_i w anc₀ v
    cases h' with
    | root => exact absurd hv (root_not_child hwf _ hprev.mem_allOUs)
    | step hprev' hv' =>
      rename_i w' anc₀'
      have hww : w = w' :=
        parent_unique hwf hprev.mem_allOUs hprev'.mem_allOUs hv hv'
      subst hww
      rw [ih hprev']

/-- Every account of the tree sits under some node with an ancestor
chain. -/
theorem exists_home : ∀ (t : OrgTree) {a : AccountNode},
    a ∈ OUNode.allAccounts t.root → ∃ u anc, Anc t u anc ∧ a ∈ u.accounts := by
  intro t a ha
  have haux : ∀ (u : OUNode), ∀ (anc : List OUNode), Anc t u anc →
      ∀ a ∈ OUNode.allAccounts u, ∃ v anc', Anc t v anc' ∧ a ∈ v.accounts := by
    refine OUNode.rec_size ?_
    intro u ih anc hAnc b hb
    rw [allAccounts_eq] at hb
    rcases List.mem_append.mp hb with h | h
    · exact ⟨u, anc, hAnc, h⟩
    · obtain ⟨c, hc, hbc⟩ := mem_allAccountsF_inv h
      exact ih c hc (u :: anc) (Anc.step hAnc hc) b hbc
  exact haux t.root [] Anc.root a ha

/-! ## Symbolic run of the found-path printer -/

/-- The OU entries of a root-first descending chain, depth-annotated
starting at `d`. -/
def ouEntriesFrom : Nat → List OUNode → List VEntry
  | _, [] => []
  | d, v :: rest => VEntry.ou d v.name v.id :: ouEntriesFrom (d + 1) rest

theorem ouEntriesFrom_depths :
    ∀ (vs : List OUNode) (d : Nat),
      (ouEntriesFrom d vs).map VEntry.depthOf = List.range' d vs.length := by
  intro vs
  induction vs with
  | nil => intro d; simp [ouEntriesFrom]
  | cons v rest ih =>
    intro d
    rw [ouEntriesFrom, List.map_cons, ih (d + 1)]
    simp [List.range'_succ, VEntry.depthOf]

/-- Running `printPathLines` over a chain of OU ids followed by a single
account id: one name lookup and line per OU, then the management check,
SCP resolution and account line; nothing is marked visited. -/
theorem printPathLines_run (org : Org) (a : AccountNode) (raw : List String)
    (hsh : AccShaped a.id) (hname : org.describeAccountApi a.id = Except.ok a.name)
    (hscp : ScpOK org a.id raw) :
    ∀ (ws : List OUNode) (d : Nat),
      (∀ w ∈ ws, OUShaped w.id ∧ org.describeOUApi w.id = Except.ok w.name) →
      ∃ N cs, ∀ fuel, N ≤ fuel → ∀ s : S,
        printPathLines org fuel (ws.map OUNode.id ++ [a.id]) (indentOf d) s =
          (Except.ok (),
           { out := s.out ++
               (ouEntriesFrom d ws ++
                 [VEntry.acct (d + ws.length) a.name a.id (mgmtFlag org a.id) raw]).map
                 renderEntry,
             visited := s.visited,
             calls := s.calls ++ cs }) := by
  intro ws
  induction ws with
  | nil =>
    intro d _
    obtain ⟨Na, csa, _, hrun⟩ := hscp
    refine ⟨Na, [CallEv.descAccount a.id, CallEv.descOrg] ++ csa,
      fun fuel hfuel s => ?_⟩
    rw [List.map_nil, List.nil_append, printPathLines]
    have hr1 : goStartsWith a.id "r-" = false := hsh.2.1
    have hr2 : goStartsWith a.id "ou-" = false := hsh.2.2
    simp only [bind_app, wrapErr_app, getNameByID_accShaped org hsh hname, hr1, hr2,
      Bool.false_eq_true, if_false, isManagementAccount_run,
      hrun fuel hfuel, emit_app]
    rw [printPathLines]
    simp [ouEntriesFrom, renderEntry, List.append_assoc]
  | cons w rest ih =>
    intro d hdata
    obtain ⟨hshw, hnw⟩ := hdata w (List.mem_cons_self w rest)
    obtain ⟨N', cs', hrun'⟩ := ih (d + 1) (fun x hx => hdata x (List.mem_cons_of_mem w hx))
    refine ⟨N', [CallEv.descOU w.id] ++ cs', fun fuel hfuel s => ?_⟩
    rw [List.map_cons, List.cons_append, printPathLines]
    have hr1 : goStartsWith w.id "r-" = false := hshw.2.1
    have hr2 : goStartsWith w.id "ou-" = true := hshw.2.2
    simp only [bind_app, wrapErr_app, getNameByID_ouShaped org hshw hnw, hr1, hr2,
      Bool.false_eq_true, if_false, if_true, emit_app]
    rw [show indentOf d ++ indent = indentOf (d + 1) from rfl]
    rw [hrun' fuel hfuel
      { out := s.out ++ [ouLine (indentOf d) w.name w.id], visited := s.visited,
        calls := s.calls ++ [CallEv.descOU w.id] }]
    rw [show d + 1 + rest.length = d + (rest.length + 1) from by omega]
    simp [ouEntriesFrom, renderEntry, List.append_assoc]

/-- Running `printPathLines` on a full root-first path: the root line is
printed with the hardcoded empty prefix and no collaborator call, then
the chain below it. -/
theorem printPathLines_run_root (org : Org) (rootId : String) (a : AccountNode)
    (raw : List String) (hroot : RootShaped rootId)
    (hsh : AccShaped a.id) (hname : org.describeAccountApi a.id = Except.ok a.name)
    (hscp : ScpOK org a.id raw) (ws : List OUNode)
    (hws : ∀ w ∈ ws, OUShaped w.id ∧ org.describeOUApi w.id = Except.ok w.name) :
    ∃ N cs, ∀ fuel, N ≤ fuel → ∀ s : S,
      printPathLines org fuel (rootId :: (ws.map OUNode.id ++ [a.id])) "" s =
        (Except.ok (),
         { out := s.out ++
             (VEntry.root rootId ::
               (ouEntriesFrom 1 ws ++
                 [VEntry.acct (1 + ws.length) a.name a.id (mgmtFlag org a.id) raw])).map
               renderEntry,
           visited := s.visited,
           calls := s.calls ++ cs }) := by
  obtain ⟨N', cs', hrun'⟩ := printPathLines_run org a raw hsh hname hscp ws 1 hws
  refine ⟨N', cs', fun fuel hfuel s => ?_⟩
  rw [printPathLines]
  have hr1 : goStartsWith rootId "r-" = true := hroot.2
  simp only [bind_app, wrapErr_app, getNameByID_rootShaped org hroot, hr1, if_true,
    emit_app]
  rw [show ("" : String) ++ indent = indentOf 1 from rfl]
  rw [hrun' fuel hfuel
    { out := s.out ++ [rootLine "" rootId], visited := s.visited, calls := s.calls }]
  simp [renderEntry, List.append_assoc]

/-! ## The BFS loop of `printPathToAccount` -/

theorem listSizes_lt : ∀ (vs : List OUNode), (vs.map (fun c => sizeOf c)).sum < sizeOf vs
  | [] => by simp
  | v :: rest => by
    have h := listSizes_lt rest
    have hsz : sizeOf (v :: rest) = 1 + sizeOf v + sizeOf rest := by simp
    simp only [List.map_cons, List.sum_cons]
    omega

theorem ousSizes_lt (u : OUNode) : ((u.ous.map (fun c => sizeOf c)).sum) < sizeOf u := by
  have h1 := listSizes_lt u.ous
  have h2 : sizeOf u.ous < sizeOf u := by
    cases u
    simp only [OUNode.ous_mk, OUNode.mk.sizeOf_spec]
    omega
  omega

theorem OUNode.one_le_sizeOf (u : OUNode) : 1 ≤ sizeOf u := by
  cases u
  simp only [OUNode.mk.sizeOf_spec]
  omega

/-- Reversing an ancestor chain puts the root first, followed by
OU-shaped nodes the collaborator resolves. -/
theorem Anc.reverse_shape {t : OrgTree} (hwf : WF t) :
    ∀ {u : OUNode} {anc : List OUNode}, Anc t u anc →
      ∃ ws, (u :: anc).reverse = t.root :: ws ∧ ws.length = anc.length ∧
        ∀ w ∈ ws, OUShaped w.id ∧
          (Org.ofTree t).describeOUApi w.id = Except.ok w.name := by
  intro u anc h
  induction h with
  | root => exact ⟨[], by simp, rfl, by simp⟩
  | step hprev hv ih =>
    rename_i w anc₀ v
    obtain ⟨ws, hrev, hlen, hdata⟩ := ih
    refine ⟨ws ++ [v], ?_, by simp [hlen], ?_⟩
    · rw [List.reverse_cons, hrev]
      simp
    · intro x hx
      rcases List.mem_append.mp hx with h | h
      · exact hdata x h
      · have hxv : x = v := by simpa using h
        rw [hxv]
        exact ⟨hwf.ouShapes w hprev.mem_allOUs v hv,
          ofTree_ouName hwf (allOUs_closed t.root w hprev.mem_allOUs v hv)⟩

/-- The reversed chain is a root-first descent by single-parent edges
ending at the node itself. -/
theorem Anc.chain_edges {t : OrgTree} :
    ∀ {u : OUNode} {anc : List OUNode}, Anc t u anc →
      List.Chain' (fun v w => w ∈ v.ous) ((u :: anc).reverse) ∧
      ((u :: anc).reverse).getLast? = some u := by
  intro u anc h
  induction h with
  | root => exact ⟨by simp, by simp⟩
  | step hprev hv ih =>
    obtain ⟨hch, hlast⟩ := ih
    rename_i w anc₀ v
    constructor
    · rw [List.reverse_cons]
      refine List.Chain'.append hch (by simp) ?_
      intro x hx y hy
      have hx' : w = x := by
        rw [hlast] at hx
        simpa using hx
      have hy' : v = y := by simpa using hy
      rw [← hx', ← hy']
      exact hv
    · rw [List.reverse_cons]
      simp

theorem ouEntriesFrom_ids :
    ∀ (vs : List OUNode) (d : Nat),
      (ouEntriesFrom d vs).map VEntry.entryId = vs.map OUNode.id := by
  intro vs
  induction vs with
  | nil => intro d; simp [ouEntriesFrom]
  | cons v rest ih =>
    intro d
    rw [ouEntriesFrom, List.map_cons, List.map_cons, ih (d + 1)]
    rfl

/-- Scanning a child-account list that does not contain the target finds
nothing, whatever the heap writes of its appends do. -/
theorem pathScanAccounts_miss (target : String) :
    ∀ (ids : List String) (h : Heap) (sl : GoSlice), target ∉ ids →
      ∃ h₂, pathScanAccounts target h sl ids = (h₂, none) := by
  intro ids
  induction ids with
  | nil => intro h sl _; exact ⟨h, rfl⟩
  | cons x rest ih =>
    intro h sl hx
    have hne : (x == target) = false := by
      simp only [beq_eq_false_iff_ne, ne_eq]
      intro he
      exact hx (he ▸ List.mem_cons_self x rest)
    obtain ⟨h₂, hrec⟩ :=
      ih (goAppend h sl x).1 sl (fun hm => hx (List.mem_cons_of_mem x hm))
    refine ⟨h₂, ?_⟩
    rw [pathScanAccounts]
    simp only [hne, Bool.false_eq_true, if_false]
    exact hrec

/-- The enqueue loop enqueues exactly the child OU ids, in order. -/
theorem pathEnqueueOUs_ids :
    ∀ (ids : List String) (h : Heap) (sl : GoSlice),
      ((pathEnqueueOUs h sl ids).2).map PathNode.id = ids := by
  intro ids
  induction ids with
  | nil => intro h sl; rfl
  | cons x rest ih =>
    intro h sl
    rw [pathEnqueueOUs]
    dsimp only
    rw [List.map_cons, ih]

/-- The BFS loop on a queue of tree-node entries none of whose subtrees
holds the target account id drains the queue — this branch never reads
the stored path slices or the heap — prints the not-found message (no
trailing newline) and succeeds. -/
theorem printPathToAccountLoop_miss {t : OrgTree} (hwf : WF t) {target : String}
    (htgt : target ∉ (OUNode.allAccounts t.root).map AccountNode.id) :
    ∀ (n : Nat) (q : List OUNode),
      (q.map (fun v => sizeOf v)).sum ≤ n →
      (∀ v ∈ q, v ∈ OUNode.allOUs t.root) →
      ∃ N cs, ∀ (pq : List PathNode), pq.map PathNode.id = q.map OUNode.id →
        ∀ fuel, N ≤ fuel → ∀ (h : Heap) (s : S),
          printPathToAccountLoop (Org.ofTree t) target fuel h pq s =
            (Except.ok (),
             { out := s.out ++
                 ["Target account ID " ++ target ++ " was not found in the organization"],
               visited := s.visited,
               calls := s.calls ++ cs }) := by
  intro n
  induction n with
  | zero =>
    intro q hq _
    match q, hq with
    | [], _ =>
      refine ⟨1, [], ?_⟩
      intro pq hids fuel hfuel h s
      match pq, hids with
      | [], _ =>
        match fuel, hfuel with
        | f + 1, _ =>
          rw [printPathToAccountLoop]
          simp [emit]
      | p :: pq', hids => simp at hids
    | v :: r, hq =>
      exfalso
      simp only [List.map_cons, List.sum_cons] at hq
      have := OUNode.one_le_sizeOf v
      omega
  | succ m ih =>
    intro q hq hmem
    match q, hq, hmem with
    | [], _, _ =>
      refine ⟨1, [], ?_⟩
      intro pq hids fuel hfuel h s
      match pq, hids with
      | [], _ =>
        match fuel, hfuel with
        | f + 1, _ =>
          rw [printPathToAccountLoop]
          simp [emit]
      | p :: pq', hids => simp at hids
    | v :: q', hq, hmem =>
      have hvmem : v ∈ OUNode.allOUs t.root := hmem v (List.mem_cons_self _ _)
      have hca := ofTree_children_acc hwf hvmem
      have hco := ofTree_children_ou hwf hvmem
      have hnot : target ∉ v.accounts.map AccountNode.id := by
        intro hmm
        obtain ⟨a', ha', hid⟩ := List.mem_map.mp hmm
        exact htgt (hid ▸ List.mem_map_of_mem AccountNode.id
          (allAccounts_mem t.root v hvmem a' ha'))
      have hqm : ((q' ++ v.ous).map (fun w => sizeOf w)).sum ≤ m := by
        simp only [List.map_cons, List.sum_cons] at hq
        have h1 := ousSizes_lt v
        simp only [List.map_append, List.sum_append]
        omega
      have hmem' : ∀ w ∈ q' ++ v.ous, w ∈ OUNode.allOUs t.root := by
        intro w hw
        rcases List.mem_append.mp hw with h | h
        · exact hmem w (List.mem_cons_of_mem _ h)
        · exact allOUs_closed t.root v hvmem w h
      obtain ⟨N', cs', hrun'⟩ := ih _ hqm hmem'
      refine ⟨N' + 1,
        [CallEv.listChildren v.id ChildType.account,
         CallEv.listChildren v.id ChildType.organizationalUnit] ++ cs',
        ?_⟩
      intro pq hids fuel hfuel h s
      match pq, hids with
      | [], hids => simp at hids
      | p :: pq', hids =>
        simp only [List.map_cons, List.cons.injEq] at hids
        obtain ⟨hpid, hids'⟩ := hids
        match fuel, hfuel with
        | f + 1, hfuel =>
          rw [printPathToAccountLoop]
          simp only [bind_app, wrapErr_app, listChildren, liftApi_ok, hpid, hca, hco]
          obtain ⟨h₂, hscan⟩ :=
            pathScanAccounts_miss target (v.accounts.map AccountNode.id) h p.path hnot
          rw [hscan]
          dsimp only
          rw [hrun' (pq' ++ (pathEnqueueOUs h₂ p.path (v.ous.map OUNode.id)).2)
            (by simp [List.map_append, hids', pathEnqueueOUs_ids])
            f (by omega)
            (pathEnqueueOUs h₂ p.path (v.ous.map OUNode.id)).1
            { out := s.out, visited := s.visited,
              calls := s.calls ++ [CallEv.listChildren v.id ChildType.account] ++
                [CallEv.listChildren v.id ChildType.organizationalUnit] }]
          simp [List.append_assoc]

/-! ## C5 (amended): the NotFound outcome -/

/-- C5 (amended): when the path search exhausts its queue without
matching the target account id, it prints the informational message
`Target account ID <id> was not found in the organization` (with no
trailing newline) and returns `nil` — the outcome is surfaced only in
the output text, NOT distinctly from success: the error value and hence
the exit behavior are identical to a found path. -/
theorem printPathToAccount_notfound_message (t : OrgTree) (hwf : WF t)
    (target : String)
    (htgt : target ∉ (OUNode.allAccounts t.root).map AccountNode.id) :
    ∃ N cs, ∀ fuel, N ≤ fuel → ∀ s : S,
      printPathToAccount (Org.ofTree t) fuel t.root.id target s =
        (Except.ok (),
         { out := s.out ++
             ["Target account ID " ++ target ++ " was not found in the organization"],
           visited := s.visited,
           calls := s.calls ++ cs }) := by
  obtain ⟨N, cs, h⟩ := printPathToAccountLoop_miss hwf htgt (sizeOf t.root)
    [t.root] (by simp)
    (by
      intro v hv
      rw [List.mem_singleton] at hv
      subst hv
      exact self_mem_allOUs t.root)
  refine ⟨N, cs, fun fuel hf s => ?_⟩
  rw [printPathToAccount]
  exact h [⟨⟨0, 1⟩, t.root.id⟩] (by simp) fuel hf [⟨1, [t.root.id]⟩] s

/-- C5 witness: a target absent from the concrete snapshot. -/
theorem printPathToAccount_notfound_message_witness :
    ∃ N cs, ∀ fuel, N ≤ fuel → ∀ s : S,
      printPathToAccount (Org.ofTree treeW) fuel treeW.root.id "000000000000" s =
        (Except.ok (),
         { out := s.out ++
             ["Target account ID " ++ "000000000000" ++
               " was not found in the organization"],
           visited := s.visited,
           calls := s.calls ++ cs }) :=
  printPathToAccount_notfound_message treeW treeW_wf "000000000000"
    (by
      simp only [treeW, rootW, ouFin, acct1, acct2, allAccounts_eq, allAccountsF,
        OUNode.accounts_mk, OUNode.ous_mk, List.map_cons, List.map_nil]
      decide)

/-! ## C3: the path search's slice aliasing -/

/-- The five-node organization `r-wx → ou-w2-a → ou-w2-b →
{ou-w2-c1, ou-w2-c2}` whose only member account `777788889999` sits
under `ou-w2-c1`; every listing is consistent with that tree. -/
def aliasOrg : Org := { stubOrg with
  listRootsApi := Except.ok ["r-wx"]
  listChildrenApi := fun pid ct =>
    match pid, ct with
    | "r-wx", ChildType.account => Except.ok []
    | "r-wx", ChildType.organizationalUnit => Except.ok ["ou-w2-a"]
    | "ou-w2-a", ChildType.account => Except.ok []
    | "ou-w2-a", ChildType.organizationalUnit => Except.ok ["ou-w2-b"]
    | "ou-w2-b", ChildType.account => Except.ok []
    | "ou-w2-b", ChildType.organizationalUnit => Except.ok ["ou-w2-c1", "ou-w2-c2"]
    | "ou-w2-c1", ChildType.account => Except.ok ["777788889999"]
    | "ou-w2-c1", ChildType.organizationalUnit => Except.ok []
    | "ou-w2-c2", ChildType.account => Except.ok []
    | "ou-w2-c2", ChildType.organizationalUnit => Except.ok []
    | _, _ => Except.error "ParentNotFoundException"
  describeAccountApi := fun id =>
    match id with
    | "777788889999" => Except.ok "leaf"
    | _ => Except.error "AccountNotFoundException"
  describeOUApi := fun id =>
    match id with
    | "ou-w2-a" => Except.ok "A"
    | "ou-w2-b" => Except.ok "B"
    | "ou-w2-c1" => Except.ok "C1"
    | "ou-w2-c2" => Except.ok "C2"
    | _ => Except.error "OrganizationalUnitNotFoundException"
  listPoliciesApi := fun tid =>
    match tid with
    | "r-wx" => Except.ok ["FullAWSAccess"]
    | "777788889999" => Except.ok ["DenyAll"]
    | "ou-w2-a" => Except.ok []
    | "ou-w2-b" => Except.ok []
    | "ou-w2-c1" => Except.ok []
    | "ou-w2-c2" => Except.ok []
    | _ => Except.error "TargetNotFoundException"
  listParentsApi := fun cid =>
    match cid with
    | "777788889999" => Except.ok ["ou-w2-c1"]
    | "ou-w2-c1" => Except.ok ["ou-w2-b"]
    | "ou-w2-c2" => Except.ok ["ou-w2-b"]
    | "ou-w2-b" => Except.ok ["ou-w2-a"]
    | "ou-w2-a" => Except.ok ["r-wx"]
    | _ => Except.error "ChildNotFoundException"
  describeOrganizationApi := Except.ok "999999999999" }

theorem atoiOk_acct3 : atoiOk "777788889999" = true := by decide

theorem len_acct3 : "777788889999".length = 12 := rfl

theorem pre_acct3_r : goStartsWith "777788889999" "r-" = false := by decide

theorem pre_acct3_ou : goStartsWith "777788889999" "ou-" = false := by decide

theorem pre_root_wx : goStartsWith "r-wx" "r-" = true := by decide

theorem atoiOk_root_wx : atoiOk "r-wx" = false := by decide

theorem atoiOk_oua : atoiOk "ou-w2-a" = false := by decide

theorem atoiOk_oub : atoiOk "ou-w2-b" = false := by decide

theorem atoiOk_ouc2 : atoiOk "ou-w2-c2" = false := by decide

theorem pre_oua_r : goStartsWith "ou-w2-a" "r-" = false := by decide

theorem pre_oub_r : goStartsWith "ou-w2-b" "r-" = false := by decide

theorem pre_ouc1_r : goStartsWith "ou-w2-c1" "r-" = false := by decide

theorem pre_ouc2_r : goStartsWith "ou-w2-c2" "r-" = false := by decide

theorem pre_oua_ou : goStartsWith "ou-w2-a" "ou-" = true := by decide

theorem pre_oub_ou : goStartsWith "ou-w2-b" "ou-" = true := by decide

theorem pre_ouc2_ou : goStartsWith "ou-w2-c2" "ou-" = true := by decide

theorem intercalate_scps :
    String.intercalate ", " ["DenyAll", "FullAWSAccess"] = "DenyAll, FullAWSAccess" := rfl

/-- C3 code bug: `newPath := append(currentNode.path, childID)`
(aws.go:178 and aws.go:229, with the `gocritic` warning suppressed by
`nolint`) extends sibling paths through one shared backing array as soon
as spare capacity appears — first at depth 2, where paths have length 3
and capacity 4 — so a later sibling's enqueue overwrites the tail cell
of an earlier sibling's stored path. In the organization
`r-wx → ou-w2-a → ou-w2-b → {ou-w2-c1, ou-w2-c2}` whose only account
sits under `ou-w2-c1`, the search succeeds but prints the line
`|-- OU: C2 [ou-w2-c2]` directly above the account, although the
account's single parent is `ou-w2-c1` and `ou-w2-c2` has no child
account: the printed node sequence does not have a single-parent edge
between each pair of consecutive entries, refuting the claim for the
program as written (the claim describes the evident intent of the path
bookkeeping). -/
theorem printPathToAccount_alias_code_bug :
    (printPathToAccount aliasOrg 12 "r-wx" "777788889999" S0).1 = Except.ok () ∧
    (printPathToAccount aliasOrg 12 "r-wx" "777788889999" S0).2.out =
      ["|-- Root: [r-wx]\n",
       "    |-- OU: A [ou-w2-a]\n",
       "        |-- OU: B [ou-w2-b]\n",
       "            |-- OU: C2 [ou-w2-c2]\n",
       "                |-- Account: leaf [777788889999] (SCPs: DenyAll, FullAWSAccess)\n"] ∧
    aliasOrg.listParentsApi "777788889999" = Except.ok ["ou-w2-c1"] ∧
    aliasOrg.listChildrenApi "ou-w2-c1" ChildType.account = Except.ok ["777788889999"] ∧
    aliasOrg.listChildrenApi "ou-w2-c2" ChildType.account = Except.ok [] := by
  refine ⟨?_, ?_, ?_, ?_, ?_⟩ <;>
    simp [printPathToAccount, printPathToAccountLoop, pathScanAccounts, pathEnqueueOUs,
      goAppend, readSlice, writeAt, Heap.lookup, printPathLines, listChildren, aliasOrg,
      stubOrg, isManagementAccount, getNameByID, getAccount, getOU, wrapErr,
      listAllSCPsForChild, listSCPsForTarget, listParentOUs, scpsOfParents, dedupFirst,
      dedupFirstGo, accountLine, ouLine, rootLine, S0, indent, atoiOk_acct3, len_acct3,
      pre_acct3_r, pre_acct3_ou, pre_root_wx, atoiOk_root_wx, atoiOk_oua, atoiOk_oub,
      atoiOk_ouc2, pre_oua_r, pre_oub_r, pre_ouc1_r, pre_ouc2_r, pre_oua_ou, pre_oub_ou,
      pre_ouc2_ou, intercalate_scps]
